import Mathlib

/-!
# Verification of the glow graph optimizer (`src/glow/Optimizer/GraphOptimizer.cpp`)

A shallow embedding of the graph optimizer.  The graph substrate (nodes,
variables, use-lists) lives in the repository's graph library, which is not
part of the two source files; it is modelled from the spec's data-model
section (§3).  The optimizer passes `DCE`, `SinkTranspose`, `OptimizePool`,
`OptimizeBatchNorm` and the entry point `optimize` are translated directly
from `GraphOptimizer.cpp`.

Modelling decisions:

* `FloatTy` (single-precision float in the C++ code) is modelled as `ℚ`.
  The reciprocal square root `1.0 / std::sqrt x` of the BatchNorm fold is
  not representable over `ℚ`; it is abstracted as an explicit function
  parameter `rsqrt : ℚ → ℚ`, so the factor `A = γ / √(σ² + ε)` of the fold
  appears as `A = γ * rsqrt (σ² + ε)`.
* C++ `assert` failures (fatal aborts) are modelled as `Except.error` with a
  tag naming the assertion; a pass that can trip an assertion returns
  `Except AssertKind Graph`.
* Use-lists are derived from the node list (the spec's use-list-integrity
  invariant `uses(N) = \x7b (C, slot) : input(C, slot) == N \x7d`), so
  `hasUsers` / `hasOneUse` are computed by scanning consumers.
* The C++ passes iterate `for (it = begin, e = end; it != e; ++it)` over an
  `std::list`; nodes created during the pass are appended before the `end`
  sentinel and are therefore visited by the same pass.  This is modelled by
  a worklist of node ids that grows with the freshly created ids, driven by
  a fuel parameter large enough for any terminating run.
-/

/-- A reference from a consumer's input slot to a producer: either an
operation node or a parameter variable.  Modelled from the spec: "Edge: a
typed reference from a consumer's input slot to a producer". -/
inductive NodeRef where
  | var (id : Nat)
  | node (id : Nat)
deriving DecidableEq, Repr

/-- Pool mode, `PoolNode::Mode` in the C++ code. -/
inductive PoolMode where
  | Max
  | Avg
deriving DecidableEq, Repr

/-- Arithmetic mode (`ArithmeticNode::getMode()`); the spec lists
`\x7bAdd, Mul, …\x7d`. -/
inductive ArithMode where
  | Add
  | Mul
deriving DecidableEq, Repr

/-- The closed set of operation-node variants the optimizer pattern-matches
on.  Modelled from the spec (§3, node-specific attributes); field order of
`batchNorm` follows `createBatchNormalization(name, input, bias, scale,
mean, var, channelIdx, epsilon, momentum)`. -/
inductive NodeKind where
  | conv (input filter bias : NodeRef) (kernel stride pad : Nat)
  | batchNorm (input bias scale mean var : NodeRef)
      (channelIdx : Nat) (epsilon momentum : ℚ)
  | pool (mode : PoolMode) (input : NodeRef) (kernel stride pad : Nat)
  | relu (input : NodeRef)
  | transpose (input : NodeRef) (shuffle : List Nat)
  | concat (inputs : List NodeRef) (dim : Nat)
  | arithmetic (mode : ArithMode) (lhs rhs : NodeRef)
  | save (input : NodeRef)
deriving DecidableEq, Repr

/-- An operation node: stable name plus kind (inputs and attributes).
Modelled from the spec (§3). -/
structure Node where
  id : Nat
  name : String
  kind : NodeKind
deriving DecidableEq, Repr

/-- A parameter variable: a named tensor (shape plus row-major payload).
Modelled from the spec (§3): "Variable: a named tensor holding mutable
data; appears as a graph leaf". -/
structure Variable where
  id : Nat
  name : String
  dims : List Nat
  data : List ℚ
deriving DecidableEq, Repr

/-- The graph: ordered operation nodes and parameter variables, plus a
fresh-id counter for nodes created by rewrites.  Modelled from the spec
(§3): "Graph: owns two disjoint ordered collections". -/
structure Graph where
  nodes : List Node
  vars : List Variable
  nextId : Nat
deriving DecidableEq, Repr

/-- The input references of a node (one entry per input slot, in slot
order). -/
def NodeKind.refs : NodeKind → List NodeRef
  | .conv i f b _ _ _ => [i, f, b]
  | .batchNorm i bb sc mn vr _ _ _ => [i, bb, sc, mn, vr]
  | .pool _ i _ _ _ => [i]
  | .relu i => [i]
  | .transpose i _ => [i]
  | .concat ins _ => ins
  | .arithmetic _ l r => [l, r]
  | .save i => [i]

/-- `isa<SaveNode>`. -/
def Node.isSave (n : Node) : Bool :=
  match n.kind with
  | .save _ => true
  | _ => false

/-- Derived use-list membership: `r` has a user among `ns`.  By the spec's
use-list-integrity invariant this is `hasUsers` of the producer `r`. -/
def usedIn (ns : List Node) (r : NodeRef) : Prop :=
  ∃ n ∈ ns, r ∈ n.kind.refs

instance (ns : List Node) (r : NodeRef) : Decidable (usedIn ns r) :=
  List.decidableBEx _ ns

/-- The number of uses of `r` (with multiplicity, one per referencing input
slot), i.e. the size of the derived use-list; `hasOneUse` is
`useCount = 1`. -/
def useCount (G : Graph) (r : NodeRef) : Nat :=
  (G.nodes.map (fun n => n.kind.refs.count r)).sum

/-- `Graph::getNodes()` lookup by id (first match in list order). -/
def Graph.findNode (G : Graph) (i : Nat) : Option Node :=
  G.nodes.find? (fun n => n.id = i)

/-- `Graph::getVars()` lookup by id (first match in list order). -/
def Graph.findVar (G : Graph) (i : Nat) : Option Variable :=
  G.vars.find? (fun v => v.id = i)

/-- Node creation (the `Graph::createX` builders): append a fresh node and
return its id.  Modelled from the spec: new nodes are appended to the
graph. -/
def Graph.addNode (G : Graph) (name : String) (k : NodeKind) : Graph × Nat :=
  ({ G with nodes := G.nodes ++ [⟨G.nextId, name, k⟩], nextId := G.nextId + 1 },
   G.nextId)

/-- Replace one reference. -/
def replaceRef (a b r : NodeRef) : NodeRef :=
  if r = a then b else r

/-- Replace references inside a node kind (input rewiring; attributes are
untouched). -/
def NodeKind.replaceIn (a b : NodeRef) : NodeKind → NodeKind
  | .conv i f bs k s p =>
      .conv (replaceRef a b i) (replaceRef a b f) (replaceRef a b bs) k s p
  | .batchNorm i bb sc mn vr c e m =>
      .batchNorm (replaceRef a b i) (replaceRef a b bb) (replaceRef a b sc)
        (replaceRef a b mn) (replaceRef a b vr) c e m
  | .pool md i k s p => .pool md (replaceRef a b i) k s p
  | .relu i => .relu (replaceRef a b i)
  | .transpose i sh => .transpose (replaceRef a b i) sh
  | .concat ins d => .concat (ins.map (replaceRef a b)) d
  | .arithmetic md l r =>
      .arithmetic md (replaceRef a b l) (replaceRef a b r)
  | .save i => .save (replaceRef a b i)

/-- `Node::replaceAllUsesOfWith`: every edge that referenced `a` is rewired
to reference `b`.  Modelled from the spec (§4.2 replacement semantics). -/
def replaceAllUsesOfWith (a b : NodeRef) (G : Graph) : Graph :=
  { G with nodes := G.nodes.map (fun n => { n with kind := n.kind.replaceIn a b }) }

/-- The assertions (fatal aborts) the optimizer and the library helpers it
calls can trip. -/
inductive AssertKind where
  | concatArity
  | maskSize
  | indexOOB
  | castVar
  | atOOB
deriving DecidableEq, Repr

/-!
## Dead-code elimination (`DCE`, GraphOptimizer.cpp lines 14-47)
-/

/-- One scan of the do-while loop of `DCE` (lines 21-35): walk the node
list in order; a node with no users that is not a Save is deleted.  `done`
holds the survivors of this scan so far; the Bool records whether anything
was removed (`changedLocally`).  The user check looks at the full current
node list, i.e. earlier survivors, the node itself and the not yet visited
tail. -/
def dceScan (done : List Node) : List Node → List Node × Bool
  | [] => (done, false)
  | n :: rest =>
    if usedIn (done ++ n :: rest) (.node n.id) ∨ n.isSave = true then
      dceScan (done ++ [n]) rest
    else
      ((dceScan done rest).1, true)

/-- The do-while loop of `DCE`: rescan until a full scan removes nothing.
Each changing scan removes at least one node, so fuel `ns.length` reaches
the fixed point. -/
def dceLoop : Nat → List Node → List Node
  | 0, ns => ns
  | fuel + 1, ns =>
    match dceScan [] ns with
    | (res, true) => dceLoop fuel res
    | (res, false) => res

/-- The operation-node part of `DCE`. -/
def dceNodes (ns : List Node) : List Node :=
  dceLoop ns.length ns

/-- `DCE` (lines 14-47): remove unused non-Save nodes to a fixed point,
then delete variables with no users (lines 37-46). -/
def DCE (G : Graph) : Graph :=
  let ns := dceNodes G.nodes
  { nodes := ns,
    vars := G.vars.filter (fun v => usedIn ns (.var v.id)),
    nextId := G.nextId }

/-!
## `isIdentityShuffle` (lines 52-67)
-/

/-- `isIdentityShuffle(shuffle1, shuffle2)`: the combined masks are the
identity mask.  `ArrayRef::operator[]` is total here in the C++ only
because valid permutations index in range; out-of-range reads are modelled
with default `0` exactly as the loop would read them. -/
def isIdentityShuffle (s1 s2 : List Nat) : Bool :=
  if s1.length ≠ s2.length then
    false
  else
    (List.range s1.length).all (fun i => s2.getD (s1.getD i 0) 0 = i)

/-!
## `SinkTranspose` (lines 70-201)
-/

/-- `dyn_cast<TransposeNode>(r)` plus field reads: name, input and shuffle
of the transpose `r` resolves to, if any.  A variable reference or a node
of any other kind yields `none`. -/
def Graph.getTR (G : Graph) (r : NodeRef) : Option (String × NodeRef × List Nat) :=
  match r with
  | .var _ => none
  | .node i =>
    match G.findNode i with
    | none => none
    | some n =>
      match n.kind with
      | .transpose inp sh => some (n.name, inp, sh)
      | _ => none

/-- The transpose-collection loop of the Concat rule (lines 157-168): walk
the concat operands; stop at the first operand that is not a Transpose.
`none` models the C++ bail-out `CN->getInputs().size() != transposes.size()`
(some input was not a transpose); `some` returns the (name, input, shuffle)
triples of all operands. -/
def collectTRs (G : Graph) : List NodeRef → Option (List (String × NodeRef × List Nat))
  | [] => some []
  | r :: rs =>
    match G.getTR r with
    | none => none
    | some t => (collectTRs G rs).map (t :: ·)

/-- The loop body of `SinkTranspose` for one visited node (lines 74-200).
Returns the rewritten graph and the ids of the nodes the step created (the
`std::list` iteration also visits nodes appended during the pass), or the
assertion the step trips. -/
def sinkStep (G : Graph) (n : Node) : Except AssertKind (Graph × List Nat) :=
  match n.kind with
  | .batchNorm inp bnBias bnScale bnMean bnVar cIdx eps mom =>
    -- Sink Transpose below batch normalization nodes (lines 76-96).
    match G.getTR inp with
    | none => .ok (G, [])
    | some (trName, trIn, sh) =>
      match sh.get? cIdx with
      | none => .error .indexOOB
      | some newChannelIdx =>
        let r1 := G.addNode n.name
          (.batchNorm trIn bnBias bnScale bnMean bnVar newChannelIdx eps mom)
        let r2 := r1.1.addNode trName (.transpose (.node r1.2) sh)
        .ok (replaceAllUsesOfWith (.node n.id) (.node r2.2) r2.1, [r1.2, r2.2])
  | .relu inp =>
    -- Sink Transpose below RELU nodes (lines 100-111).
    match G.getTR inp with
    | none => .ok (G, [])
    | some (trName, trIn, sh) =>
      let r1 := G.addNode n.name (.relu trIn)
      let r2 := r1.1.addNode trName (.transpose (.node r1.2) sh)
      .ok (replaceAllUsesOfWith (.node n.id) (.node r2.2) r2.1, [r1.2, r2.2])
  | .transpose inp mask1 =>
    -- Merge consecutive Transpose operations (lines 114-131).
    match G.getTR inp with
    | none => .ok (G, [])
    | some (_, trIn, mask2) =>
      if mask1.length ≠ mask2.length then
        .error .maskSize
      else if isIdentityShuffle mask1 mask2 then
        .ok (replaceAllUsesOfWith (.node n.id) trIn G, [])
      else
        .ok (G, [])
  | .arithmetic md lhs rhs =>
    -- Sink Transpose below Arithmetic nodes (lines 134-150).
    match G.getTR lhs, G.getTR rhs with
    | some (lName, lIn, lSh), some (_, rIn, rSh) =>
      if lSh ≠ rSh then
        .ok (G, [])
      else
        let r1 := G.addNode n.name (.arithmetic md lIn rIn)
        let r2 := r1.1.addNode lName (.transpose (.node r1.2) lSh)
        .ok (replaceAllUsesOfWith (.node n.id) (.node r2.2) r2.1, [r1.2, r2.2])
    | _, _ => .ok (G, [])
  | .concat ins dim =>
    -- Sink Transpose below Concat nodes (lines 153-198).
    if ins.length ≤ 1 then
      .error .concatArity
    else
      match collectTRs G ins with
      | none => .ok (G, [])
      | some trs =>
        match trs with
        | [] => .ok (G, [])
        | (fName, _, fSh) :: _ =>
          if trs.all (fun t => t.2.2 = fSh) then
            match fSh.get? dim with
            | none => .error .indexOOB
            | some newChannelIdx =>
              let r1 := G.addNode n.name
                (.concat (trs.map (fun t => t.2.1)) newChannelIdx)
              let r2 := r1.1.addNode fName (.transpose (.node r1.2) fSh)
              .ok (replaceAllUsesOfWith (.node n.id) (.node r2.2) r2.1, [r1.2, r2.2])
          else
            .ok (G, [])
  | _ => .ok (G, [])

/-- The scan of `SinkTranspose`: process the worklist of node ids in list
order; ids of nodes created by a step are appended (the C++ iterator also
reaches them, since `createX` appends before the captured `end`
sentinel). -/
def sinkLoop : Nat → Graph → List Nat → Except AssertKind Graph
  | 0, G, _ => .ok G
  | _ + 1, G, [] => .ok G
  | fuel + 1, G, i :: rest =>
    match G.findNode i with
    | none => sinkLoop fuel G rest
    | some n =>
      match sinkStep G n with
      | .error e => .error e
      | .ok (G', created) => sinkLoop fuel G' (rest ++ created)

/-- Fuel that dominates the number of loop steps of a `SinkTranspose` run
on an acyclic graph (each visited node appends at most two fresh nodes, and
cascades only walk up existing transpose chains). -/
def sinkFuel (G : Graph) : Nat :=
  (G.nodes.length + 1) * (G.nodes.length + 1) * (G.nodes.length + 1)

/-- `SinkTranspose` (lines 70-201). -/
def SinkTranspose (G : Graph) : Except AssertKind Graph :=
  sinkLoop (sinkFuel G) G (G.nodes.map (fun n => n.id))

/-!
## `OptimizePool` (lines 204-241)
-/

/-- `dyn_cast<ReluNode>(r)` plus field reads: id, name and input of the
relu `r` resolves to, if any. -/
def Graph.getRL (G : Graph) (r : NodeRef) : Option (Nat × String × NodeRef) :=
  match r with
  | .var _ => none
  | .node i =>
    match G.findNode i with
    | none => none
    | some n =>
      match n.kind with
      | .relu inp => some (n.id, n.name, inp)
      | _ => none

/-- The loop body of `OptimizePool` for one visited node (lines 208-239):
swap `Pool[Max] ← Relu ← X` to `Relu ← Pool[Max] ← X` when the relu has
exactly one user. -/
def poolStep (G : Graph) (n : Node) : Graph × List Nat :=
  match n.kind with
  | .pool md inp k s p =>
    match G.getRL inp with
    | none => (G, [])
    | some (rlId, rlName, rlIn) =>
      -- This optimization is only valid on max pooling (line 223).
      if md ≠ .Max then
        (G, [])
      -- Only fire when the relu has a single user (line 230).
      else if useCount G (.node rlId) ≠ 1 then
        (G, [])
      else
        let r1 := G.addNode n.name (.pool md rlIn k s p)
        let r2 := r1.1.addNode rlName (.relu (.node r1.2))
        (replaceAllUsesOfWith (.node n.id) (.node r2.2) r2.1, [r1.2, r2.2])
  | _ => (G, [])

/-- The scan of `OptimizePool`, same worklist discipline as `sinkLoop`. -/
def poolLoop : Nat → Graph → List Nat → Graph
  | 0, G, _ => G
  | _ + 1, G, [] => G
  | fuel + 1, G, i :: rest =>
    match G.findNode i with
    | none => poolLoop fuel G rest
    | some n =>
      let (G', created) := poolStep G n
      poolLoop fuel G' (rest ++ created)

/-- `OptimizePool` (lines 204-241). -/
def OptimizePool (G : Graph) : Graph :=
  poolLoop (sinkFuel G) G (G.nodes.map (fun n => n.id))

/-!
## `OptimizeBatchNorm` (lines 243-333)
-/

/-- `dyn_cast<ConvolutionNode>(r)` plus field reads: id, filter reference
and bias reference of the convolution `r` resolves to, if any. -/
def Graph.getCV (G : Graph) (r : NodeRef) : Option (Nat × NodeRef × NodeRef) :=
  match r with
  | .var _ => none
  | .node i =>
    match G.findNode i with
    | none => none
    | some n =>
      match n.kind with
      | .conv _ f b _ _ _ => some (n.id, f, b)
      | _ => none

/-- `cast<Variable>(r)`: the reference must be a variable present in the
graph; anything else trips the cast assertion. -/
def castVar (G : Graph) (r : NodeRef) : Except AssertKind Variable :=
  match r with
  | .node _ => .error .castVar
  | .var i =>
    match G.findVar i with
    | none => .error .castVar
    | some v => .ok v

/-- Overwrite the data payload of the variable with id `i` (the in-place
`Handle::raw(i) = …` writes of the fold, seen whole-tensor). -/
def Graph.setVarData (G : Graph) (i : Nat) (d : List ℚ) : Graph :=
  { G with vars := G.vars.map (fun v => if v.id = i then { v with data := d } else v) }

/-- `Handle::getDimForPtr(dim, ptr)`.  Modelled from the spec (§6): the
"linear-to-multidim helper"; for a row-major tensor the coordinate along
`axis` of the element at linear index `i` is
`(i / sliceSize (axis+1)) % dims[axis]`. -/
def getDimForPtr (dims : List Nat) (axis i : Nat) : Nat :=
  (i / (dims.drop (axis + 1)).prod) % dims.getD axis 1

/-- `Handle::at(\x7bc\x7d)` on a 1-D parameter tensor: element read with
an in-bounds assertion.  Modelled from the spec (§6): "handle-based element
access into variable tensor storage". -/
def atD (d : List ℚ) (c : Nat) : Except AssertKind ℚ :=
  match d.get? c with
  | none => .error .atOOB
  | some x => .ok x

/-- The filter loop of the fold (lines 305-314): element `i` of the filter
is scaled by `A = γ[c] * rsqrt (σ²[c] + ε)` where `c` is the coordinate of
`i` along axis 0 of the filter tensor.  `start` is the linear index of the
first element of `xs`. -/
def bnFoldFilterGo (rsqrt : ℚ → ℚ) (eps : ℚ) (scaleD varD : List ℚ)
    (dims : List Nat) : Nat → List ℚ → Except AssertKind (List ℚ)
  | _, [] => .ok []
  | i, x :: xs => do
    let channelId := getDimForPtr dims 0 i
    let vr ← atD varD channelId
    let stdvar := rsqrt (vr + eps)
    let gamma ← atD scaleD channelId
    let A := gamma * stdvar
    let ys ← bnFoldFilterGo rsqrt eps scaleD varD dims (i + 1) xs
    .ok ((x * A) :: ys)

/-- The bias loop of the fold (lines 316-328): element `i` of the
convolution bias becomes `b*A + B` with `A = γ[c] * rsqrt (σ²[c] + ε)` and
`B = β[c] - μ[c]*A`, `c` the coordinate of `i` along axis 0 of the bias
tensor. -/
def bnFoldBiasGo (rsqrt : ℚ → ℚ) (eps : ℚ) (scaleD biasD meanD varD : List ℚ)
    (dims : List Nat) : Nat → List ℚ → Except AssertKind (List ℚ)
  | _, [] => .ok []
  | i, x :: xs => do
    let channelId := getDimForPtr dims 0 i
    let mu ← atD meanD channelId
    let vr ← atD varD channelId
    let stdvar := rsqrt (vr + eps)
    let gamma ← atD scaleD channelId
    let beta ← atD biasD channelId
    let A := gamma * stdvar
    let B := beta - mu * A
    let ys ← bnFoldBiasGo rsqrt eps scaleD biasD meanD varD dims (i + 1) xs
    .ok ((x * A + B) :: ys)

/-- The loop body of `OptimizeBatchNorm` for one visited node (lines
247-331): fold a batch normalization into the single-use convolution
feeding it by mutating the convolution's filter and bias variables, then
rewire all uses of the BN to the convolution.  The BN's `channelIdx`
attribute is pattern-bound but never read.  The filter loop reads the
graph state at its entry; the bias loop reads the state after the filter
write (the C++ handles alias the live tensors). -/
def bnStep (rsqrt : ℚ → ℚ) (G : Graph) (n : Node) : Except AssertKind Graph :=
  match n.kind with
  | .batchNorm inp bnBias bnScale bnMean bnVar _cIdx eps _mom =>
    match G.getCV inp with
    | none => .ok G
    | some (cvId, filterRef, biasRef) =>
      -- We can't modify conv operators that have multiple users (line 257).
      if useCount G (.node cvId) ≠ 1 then
        .ok G
      else do
        let fv ← castVar G filterRef
        let sv ← castVar G bnScale
        let vv ← castVar G bnVar
        let newF ← bnFoldFilterGo rsqrt eps sv.data vv.data fv.dims 0 fv.data
        let G1 := G.setVarData fv.id newF
        let cbv ← castVar G1 biasRef
        let sv1 ← castVar G1 bnScale
        let bv1 ← castVar G1 bnBias
        let mv1 ← castVar G1 bnMean
        let vv1 ← castVar G1 bnVar
        let newB ← bnFoldBiasGo rsqrt eps sv1.data bv1.data mv1.data vv1.data
          cbv.dims 0 cbv.data
        let G2 := G1.setVarData cbv.id newB
        .ok (replaceAllUsesOfWith (.node n.id) inp G2)
  | _ => .ok G

/-- The scan of `OptimizeBatchNorm`: the pass creates no nodes, so the
worklist is just the ids of the nodes present at entry, looked up in the
current graph state. -/
def bnLoop (rsqrt : ℚ → ℚ) : Graph → List Nat → Except AssertKind Graph
  | G, [] => .ok G
  | G, i :: rest =>
    match G.findNode i with
    | none => bnLoop rsqrt G rest
    | some n => do
      let G' ← bnStep rsqrt G n
      bnLoop rsqrt G' rest

/-- `OptimizeBatchNorm` (lines 243-333). -/
def OptimizeBatchNorm (rsqrt : ℚ → ℚ) (G : Graph) : Except AssertKind Graph :=
  bnLoop rsqrt G (G.nodes.map (fun n => n.id))

/-!
## `glow::optimize` (lines 335-356)
-/

/-- `OptimizationMode`. -/
inductive OptimizationMode where
  | None
  | Infer
  | Train
deriving DecidableEq, Repr

/-- `glow::optimize(G, mode)` (lines 335-356): return unchanged for mode
`None`; otherwise sink transposes, optimize pooling, run DCE, fold batch
normalizations when inferring, and run DCE again. -/
def optimize (rsqrt : ℚ → ℚ) (G : Graph) (mode : OptimizationMode) :
    Except AssertKind Graph :=
  match mode with
  | .None => .ok G
  | _ => do
    let G1 ← SinkTranspose G
    let G2 := OptimizePool G1
    let G3 := DCE G2
    let G4 ←
      if mode = .Infer then
        OptimizeBatchNorm rsqrt G3
      else
        .ok G3
    .ok (DCE G4)

/-!
## Statement-level predicates and concrete graphs

The concrete graphs below are the end-to-end scenarios of the spec's §8,
built exactly as described there.
-/

/-- The builder invariant checked by the concat assertion, per node: a
concat has at least two operands. -/
def NodeKind.concatOKb : NodeKind → Bool
  | .concat ins _ => 2 ≤ ins.length
  | _ => true

/-- A node that trips the concat-arity assertion: a concat with one or
zero operands. -/
def NodeKind.badConcatb : NodeKind → Bool
  | .concat ins _ => ins.length ≤ 1
  | _ => false

/-- Every concat node of the graph has at least two operands. -/
def concatOK (G : Graph) : Prop :=
  ∀ n ∈ G.nodes, n.kind.concatOKb = true

instance (G : Graph) : Decidable (concatOK G) :=
  List.decidableBAll _ G.nodes

/-- `concat ins dim ↦ some ins.length`, otherwise `none`: the shape
information the concat assertion looks at. -/
def concatArity : NodeKind → Option Nat
  | .concat ins _ => some ins.length
  | _ => none

/-- A concrete stand-in for the abstracted reciprocal square root, chosen
so that `rsqrtEx (1 + 0) = 1` as in the spec's BN-fold scenario. -/
def rsqrtEx : ℚ → ℚ := fun x => 1 / x

/-- Spec §8 scenario 1: `Save ← Transpose([0,2,3,1]) ← Transpose([0,3,1,2])
← Var`. -/
def gAnnihilate : Graph :=
  { nodes := [⟨1, "t2", .transpose (.var 0) [0, 3, 1, 2]⟩,
              ⟨2, "t1", .transpose (.node 1) [0, 2, 3, 1]⟩,
              ⟨3, "save", .save (.node 2)⟩],
    vars := [⟨0, "A", [1, 2, 2, 2], []⟩],
    nextId := 4 }

/-- The annihilation graph with a second Save that also consumes the inner
transpose, so the inner transpose is not dead after the rewiring. -/
def gShared : Graph :=
  { nodes := [⟨1, "t2", .transpose (.var 0) [0, 3, 1, 2]⟩,
              ⟨2, "t1", .transpose (.node 1) [0, 2, 3, 1]⟩,
              ⟨3, "save", .save (.node 2)⟩,
              ⟨4, "save2", .save (.node 1)⟩],
    vars := [⟨0, "A", [1, 2, 2, 2], []⟩],
    nextId := 5 }

/-- A consecutive transpose pair whose permutations have different
lengths: not inverses, and the pair rule's mask-size assertion trips. -/
def gMaskMismatch : Graph :=
  { nodes := [⟨1, "t2", .transpose (.var 0) [1, 0]⟩,
              ⟨2, "t1", .transpose (.node 1) [0, 2, 1]⟩,
              ⟨3, "save", .save (.node 2)⟩],
    vars := [⟨0, "A", [2, 2], []⟩],
    nextId := 4 }

/-- Spec §8 scenario 2: `Save ← Concat(dim=1, [Transpose([0,3,1,2]) ← A,
Transpose([0,3,1,2]) ← B])`. -/
def gConcatSink : Graph :=
  { nodes := [⟨2, "ta", .transpose (.var 0) [0, 3, 1, 2]⟩,
              ⟨3, "tb", .transpose (.var 1) [0, 3, 1, 2]⟩,
              ⟨4, "cc", .concat [.node 2, .node 3] 1⟩,
              ⟨5, "save", .save (.node 4)⟩],
    vars := [⟨0, "A", [1, 2, 2, 2], []⟩, ⟨1, "B", [1, 2, 2, 2], []⟩],
    nextId := 6 }

/-- Spec §8 scenario 4: `Save ← MaxPool(k=2,s=2) ← Relu ← Var`. -/
def gPoolRelu : Graph :=
  { nodes := [⟨1, "rl", .relu (.var 0)⟩,
              ⟨2, "pl", .pool .Max (.node 1) 2 2 0⟩,
              ⟨3, "save", .save (.node 2)⟩],
    vars := [⟨0, "X", [1, 4, 4, 1], []⟩],
    nextId := 4 }

/-- Spec §8 scenario 5: the pool-relu graph with the relu feeding a second
Save (two users, swap suppressed). -/
def gPoolReluTwoUsers : Graph :=
  { nodes := [⟨1, "rl", .relu (.var 0)⟩,
              ⟨2, "pl", .pool .Max (.node 1) 2 2 0⟩,
              ⟨3, "save", .save (.node 2)⟩,
              ⟨4, "save2", .save (.node 1)⟩],
    vars := [⟨0, "X", [1, 4, 4, 1], []⟩],
    nextId := 5 }

/-- Spec §8 scenario 6: `Save ← BN(γ=[2,2], β=[1,1], μ=[0,0], σ²=[1,1],
ε=0, channel=1) ← Conv(W,b) ← X` with `W = [3,4]` (two output channels of
one element each) and `b = [5,6]`. -/
def gConvBN : Graph :=
  { nodes := [⟨0, "cv", .conv (.var 6) (.var 0) (.var 1) 1 1 0⟩,
              ⟨1, "bn", .batchNorm (.node 0) (.var 3) (.var 2) (.var 4) (.var 5) 1 0 (9 / 10)⟩,
              ⟨2, "save", .save (.node 1)⟩],
    vars := [⟨0, "filter", [2, 1, 1, 1], [3, 4]⟩, ⟨1, "cbias", [2], [5, 6]⟩,
             ⟨2, "scale", [2], [2, 2]⟩, ⟨3, "bbias", [2], [1, 1]⟩,
             ⟨4, "mean", [2], [0, 0]⟩, ⟨5, "variance", [2], [1, 1]⟩,
             ⟨6, "X", [1, 3, 3, 1], []⟩],
    nextId := 3 }

/-- The BN-fold scenario with the BN's `channelIdx` attribute set to 3
instead of 1; the fold never reads it. -/
def gConvBNIdx3 : Graph :=
  { nodes := [⟨0, "cv", .conv (.var 6) (.var 0) (.var 1) 1 1 0⟩,
              ⟨1, "bn", .batchNorm (.node 0) (.var 3) (.var 2) (.var 4) (.var 5) 3 0 (9 / 10)⟩,
              ⟨2, "save", .save (.node 1)⟩],
    vars := gConvBN.vars,
    nextId := 3 }

/-- A graph whose only content is one parameter variable with no users. -/
def gUnusedVar : Graph :=
  { nodes := [], vars := [⟨0, "w", [1], [5]⟩], nextId := 1 }

/-- A graph containing a concat with a single operand (trips the
concat-arity assertion). -/
def gSmallConcat : Graph :=
  { nodes := [⟨1, "cc", .concat [.var 0] 0⟩, ⟨2, "save", .save (.node 1)⟩],
    vars := [⟨0, "A", [2], []⟩],
    nextId := 3 }

/-- A three-node chain with no Save: every link becomes dead one step
after its consumer is removed. -/
def gDeadChain : Graph :=
  { nodes := [⟨1, "a", .relu (.var 0)⟩, ⟨2, "b", .relu (.node 1)⟩,
              ⟨3, "c", .relu (.node 2)⟩],
    vars := [⟨0, "X", [2], []⟩],
    nextId := 4 }

/-!
## Basic structural lemmas
-/

theorem addNode_vars (G : Graph) (nm : String) (k : NodeKind) :
    (G.addNode nm k).1.vars = G.vars := rfl

theorem replaceAllUsesOfWith_vars (a b : NodeRef) (G : Graph) :
    (replaceAllUsesOfWith a b G).vars = G.vars := rfl

theorem DCE_nodes (G : Graph) : (DCE G).nodes = dceNodes G.nodes := rfl

theorem DCE_vars_mem (G : Graph) (v : Variable) (h : v ∈ (DCE G).vars) :
    v ∈ G.vars := by
  have := List.mem_filter.mp h
  exact this.1

/-!
## Claim theorems: mode gating and variable removal
-/

/-- C7: for every graph, `optimize(G, None)` returns immediately with the
graph unchanged — node list, variable list, edges, attributes and variable
tensor contents are identical. -/
theorem optimize_none_is_identity (rsqrt : ℚ → ℚ) (G : Graph) :
    optimize rsqrt G OptimizationMode.None = .ok G := rfl

/-- C4 (divergence witness): the code does remove a user-less parameter
variable.  On the graph whose only content is the unused variable `w`,
`optimize(·, Train)` (and already plain `DCE`) deletes `w`, even though the
comment above `DCE` says "Do not remove unused vars because they are the
interface to the user program". -/
theorem optimize_deletes_unused_variable :
    optimize rsqrtEx gUnusedVar OptimizationMode.Train =
      .ok { nodes := [], vars := [], nextId := 1 } ∧
    DCE gUnusedVar = { nodes := [], vars := [], nextId := 1 } ∧
    gUnusedVar.vars = [⟨0, "w", [1], [5]⟩] := by
  refine ⟨rfl, rfl, rfl⟩

/-- C10: the BatchNorm fold never reads the BN's `channelIdx` attribute:
the step of `OptimizeBatchNorm` computes identical results for every value
of `channelIdx`, and on the spec's BN-fold scenario the whole of
`optimize(·, Infer)` produces identical graphs whether `channelIdx` is 1
or 3. -/
theorem bn_fold_ignores_channelIdx :
    (∀ (rsqrt : ℚ → ℚ) (G : Graph) (i : Nat) (nm : String)
        (inp bb sc mn vr : NodeRef) (eps mom : ℚ) (c₁ c₂ : Nat),
      bnStep rsqrt G ⟨i, nm, .batchNorm inp bb sc mn vr c₁ eps mom⟩ =
        bnStep rsqrt G ⟨i, nm, .batchNorm inp bb sc mn vr c₂ eps mom⟩) ∧
    optimize rsqrtEx gConvBN OptimizationMode.Infer =
      optimize rsqrtEx gConvBNIdx3 OptimizationMode.Infer := by
  refine ⟨fun rsqrt G i nm inp bb sc mn vr eps mom c₁ c₂ => rfl, ?_⟩
  have h1 : optimize rsqrtEx gConvBN OptimizationMode.Infer =
      .ok { nodes := [⟨0, "cv", .conv (.var 6) (.var 0) (.var 1) 1 1 0⟩,
                      ⟨2, "save", .save (.node 0)⟩],
            vars := [⟨0, "filter", [2, 1, 1, 1], [6, 8]⟩,
                     ⟨1, "cbias", [2], [11, 13]⟩,
                     ⟨6, "X", [1, 3, 3, 1], []⟩],
            nextId := 3 } := by with_unfolding_all rfl
  have h2 : optimize rsqrtEx gConvBNIdx3 OptimizationMode.Infer =
      .ok { nodes := [⟨0, "cv", .conv (.var 6) (.var 0) (.var 1) 1 1 0⟩,
                      ⟨2, "save", .save (.node 0)⟩],
            vars := [⟨0, "filter", [2, 1, 1, 1], [6, 8]⟩,
                     ⟨1, "cbias", [2], [11, 13]⟩,
                     ⟨6, "X", [1, 3, 3, 1], []⟩],
            nextId := 3 } := by with_unfolding_all rfl
  exact h1.trans h2.symm

/-!
## DCE soundness (claim C3)
-/

/-- If a scan of `dceScan` removes nothing, the node list is returned
unchanged and every node passed the keep test against the full list. -/
theorem dceScan_fixpoint (rest : List Node) : ∀ done res,
    dceScan done rest = (res, false) →
    res = done ++ rest ∧
      ∀ n ∈ rest, usedIn (done ++ rest) (NodeRef.node n.id) ∨ n.isSave = true := by
  induction rest with
  | nil =>
    intro done res h
    rw [dceScan] at h
    exact ⟨by simpa using (Prod.mk.injEq _ _ _ _ ▸ h).1.symm, by simp⟩
  | cons n rest ih =>
    intro done res h
    rw [dceScan] at h
    split at h
    · rename_i hkeep
      obtain ⟨h1, h2⟩ := ih (done ++ [n]) res h
      rw [List.append_assoc] at h1 h2
      refine ⟨by simpa using h1, ?_⟩
      intro m hm
      rcases List.mem_cons.mp hm with hm | hm
      · subst hm; exact hkeep
      · simpa using h2 m hm
    · exact absurd (congrArg Prod.snd h) (by simp)

/-- A scan never grows the node list. -/
theorem dceScan_length_le (rest : List Node) : ∀ done,
    (dceScan done rest).1.length ≤ done.length + rest.length := by
  induction rest with
  | nil => intro done; simp [dceScan]
  | cons n rest ih =>
    intro done
    rw [dceScan]
    split
    · have := ih (done ++ [n])
      simpa [Nat.add_comm, Nat.add_assoc, Nat.add_left_comm] using this
    · have := ih done
      simp only [List.length_cons]
      omega

/-- A scan that removed something shrank the node list strictly. -/
theorem dceScan_changed_length (rest : List Node) : ∀ done,
    (dceScan done rest).2 = true →
    (dceScan done rest).1.length + 1 ≤ done.length + rest.length := by
  induction rest with
  | nil => intro done h; rw [dceScan] at h; simp at h
  | cons n rest ih =>
    intro done h
    rw [dceScan] at h ⊢
    split at h
    · rename_i hkeep
      rw [if_pos hkeep]
      have := ih (done ++ [n]) h
      simpa [Nat.add_comm, Nat.add_assoc, Nat.add_left_comm] using this
    · rename_i hkeep
      rw [if_neg hkeep]
      have := dceScan_length_le rest done
      simp only [List.length_cons]
      omega

/-- After `dceLoop` with enough fuel to reach the fixed point, every
surviving node has a user among the survivors or is a Save. -/
theorem dceLoop_sound : ∀ (fuel : Nat) (ns : List Node), ns.length ≤ fuel →
    ∀ n ∈ dceLoop fuel ns,
      usedIn (dceLoop fuel ns) (NodeRef.node n.id) ∨ n.isSave = true := by
  intro fuel
  induction fuel with
  | zero =>
    intro ns hlen
    have : ns = [] := List.length_eq_zero.mp (Nat.le_zero.mp hlen)
    subst this
    simp [dceLoop]
  | succ fuel ih =>
    intro ns hlen n hn
    rw [dceLoop] at hn ⊢
    cases hscan : dceScan [] ns with
    | mk res changed =>
      rw [hscan] at hn
      cases changed
      · obtain ⟨h1, h2⟩ := dceScan_fixpoint ns [] res hscan
        simp only [List.nil_append] at h1 h2
        subst h1
        exact h2 n hn
      · refine ih res ?_ n hn
        have := dceScan_changed_length ns []
        rw [hscan] at this
        have := this rfl
        simp only [List.length_nil, Nat.zero_add] at this
        omega

/-- The operation-node part of `DCE` is sound. -/
theorem dceNodes_sound (ns : List Node) :
    ∀ n ∈ dceNodes ns, usedIn (dceNodes ns) (NodeRef.node n.id) ∨ n.isSave = true :=
  dceLoop_sound ns.length ns le_rfl

/-- For the modes that do any work, the result of `optimize` is the image
of a final `DCE` run. -/
theorem optimize_ok_eq_DCE (rsqrt : ℚ → ℚ) (G G' : Graph)
    (mode : OptimizationMode) (hmode : mode ≠ OptimizationMode.None)
    (h : optimize rsqrt G mode = .ok G') : ∃ H, G' = DCE H := by
  cases mode with
  | None => exact absurd rfl hmode
  | Infer =>
    simp only [optimize] at h
    cases hs : SinkTranspose G with
    | error e => rw [hs] at h; simp [Bind.bind, Except.bind] at h
    | ok G1 =>
      rw [hs] at h
      simp only [Bind.bind, Except.bind, reduceIte] at h
      cases hb : OptimizeBatchNorm rsqrt (DCE (OptimizePool G1)) with
      | error e => rw [hb] at h; simp at h
      | ok G4 =>
        rw [hb] at h
        simp only [Except.ok.injEq] at h
        exact ⟨G4, h.symm⟩
  | Train =>
    simp only [optimize] at h
    cases hs : SinkTranspose G with
    | error e => rw [hs] at h; simp [Bind.bind, Except.bind] at h
    | ok G1 =>
      rw [hs] at h
      simp only [Bind.bind, Except.bind] at h
      rw [if_neg (by decide : ¬(OptimizationMode.Train = OptimizationMode.Infer))] at h
      simp only [Except.ok.injEq] at h
      exact ⟨DCE (OptimizePool G1), h.symm⟩

/-- C3: after `DCE` returns — and therefore after `optimize` with any mode
other than `None`, whose pipeline ends in a `DCE` run — every surviving
operation node either has at least one user or is a Save node; and the
iterated scan removes a whole dead chain in one call. -/
theorem dce_leaves_no_dead_nodes :
    (∀ (G : Graph), ∀ n ∈ (DCE G).nodes,
        usedIn (DCE G).nodes (NodeRef.node n.id) ∨ n.isSave = true) ∧
    (∀ (rsqrt : ℚ → ℚ) (G G' : Graph) (mode : OptimizationMode),
        mode ≠ OptimizationMode.None → optimize rsqrt G mode = .ok G' →
        ∀ n ∈ G'.nodes, usedIn G'.nodes (NodeRef.node n.id) ∨ n.isSave = true) ∧
    DCE gDeadChain = { nodes := [], vars := [], nextId := 4 } := by
  refine ⟨fun G n hn => dceNodes_sound G.nodes n hn, ?_, rfl⟩
  intro rsqrt G G' mode hmode h n hn
  obtain ⟨H, rfl⟩ := optimize_ok_eq_DCE rsqrt G G' mode hmode h
  exact dceNodes_sound H.nodes n hn

/-!
## Transpose-pair annihilation (claim C2)
-/

/-- `isIdentityShuffle` decides exactly the inverse-permutation relation
described in the spec: equal length and pointwise `σ₂[σ₁[i]] = i`. -/
theorem isIdentityShuffle_iff (s1 s2 : List Nat) :
    isIdentityShuffle s1 s2 = true ↔
      (s1.length = s2.length ∧
        ∀ i, i < s1.length → s2.getD (s1.getD i 0) 0 = i) := by
  rw [isIdentityShuffle]
  split
  · rename_i h
    simp only [Bool.false_eq_true, false_iff, not_and]
    intro hlen
    exact absurd hlen h
  · rename_i h
    rw [Decidable.not_not] at h
    simp [List.all_eq_true, List.mem_range, h]

theorem isIdentityShuffle_length (s1 s2 : List Nat)
    (h : isIdentityShuffle s1 s2 = true) : s1.length = s2.length :=
  ((isIdentityShuffle_iff s1 s2).mp h).1

/-- The transpose-pair rule fires on an inverse pair: every use of the
outer transpose is rewired to the inner transpose's input, and nothing is
created. -/
theorem sinkStep_transpose_inverse (G : Graph) (i j i2 : Nat)
    (nm nm2 : String) (s1 s2 : List Nat) (x : NodeRef)
    (hfind : G.findNode j = some ⟨i2, nm2, .transpose x s2⟩)
    (hinv : isIdentityShuffle s1 s2 = true) :
    sinkStep G ⟨i, nm, .transpose (.node j) s1⟩ =
      .ok (replaceAllUsesOfWith (.node i) x G, []) := by
  have hlen := isIdentityShuffle_length s1 s2 hinv
  simp [sinkStep, Graph.getTR, hfind, hlen, hinv]

/-- The transpose-pair rule leaves the graph unchanged on an equal-length
pair that is not inverse. -/
theorem sinkStep_transpose_noninverse (G : Graph) (i j i2 : Nat)
    (nm nm2 : String) (s1 s2 : List Nat) (x : NodeRef)
    (hfind : G.findNode j = some ⟨i2, nm2, .transpose x s2⟩)
    (hlen : s1.length = s2.length)
    (hinv : isIdentityShuffle s1 s2 = false) :
    sinkStep G ⟨i, nm, .transpose (.node j) s1⟩ = .ok (G, []) := by
  simp [sinkStep, Graph.getTR, hfind, hlen, hinv]

/-- C2 (counterexample to the claim as stated): (a) on a graph where the
inner transpose of an inverse pair has a second user, `optimize(Infer)`
removes only the outer transpose — the inner one survives and the node
count drops by 1, not 2; (b) on a pair whose permutations have different
lengths (hence are not inverses), the pass trips the mask-size assertion
instead of leaving the pair unchanged. -/
theorem transpose_pair_counterexample :
    optimize rsqrtEx gShared OptimizationMode.Infer =
      .ok { nodes := [⟨1, "t2", .transpose (.var 0) [0, 3, 1, 2]⟩,
                      ⟨3, "save", .save (.var 0)⟩,
                      ⟨4, "save2", .save (.node 1)⟩],
            vars := [⟨0, "A", [1, 2, 2, 2], []⟩],
            nextId := 5 } ∧
    gShared.nodes.length = 4 ∧
    SinkTranspose gMaskMismatch = .error .maskSize := by
  exact ⟨by with_unfolding_all rfl, rfl, by with_unfolding_all rfl⟩

/-- C2 (amended): two permutations are inverse exactly when they have
equal length and `σ₂[σ₁[i]] = i` for all `i`; on an inverse pair the rule
rewires every use of the outer transpose to the inner transpose's input;
in the spec's concrete scenario the subsequent DCE then removes both
transposes and the node count drops by 2; an equal-length non-inverse pair
is left unchanged. -/
theorem transpose_pair_annihilation :
    (∀ s1 s2 : List Nat,
      isIdentityShuffle s1 s2 = true ↔
        (s1.length = s2.length ∧
          ∀ i, i < s1.length → s2.getD (s1.getD i 0) 0 = i)) ∧
    (∀ (G : Graph) (i j i2 : Nat) (nm nm2 : String) (s1 s2 : List Nat)
        (x : NodeRef),
      G.findNode j = some ⟨i2, nm2, .transpose x s2⟩ →
      isIdentityShuffle s1 s2 = true →
      sinkStep G ⟨i, nm, .transpose (.node j) s1⟩ =
        .ok (replaceAllUsesOfWith (.node i) x G, [])) ∧
    (∀ (G : Graph) (i j i2 : Nat) (nm nm2 : String) (s1 s2 : List Nat)
        (x : NodeRef),
      G.findNode j = some ⟨i2, nm2, .transpose x s2⟩ →
      s1.length = s2.length →
      isIdentityShuffle s1 s2 = false →
      sinkStep G ⟨i, nm, .transpose (.node j) s1⟩ = .ok (G, [])) ∧
    optimize rsqrtEx gAnnihilate OptimizationMode.Infer =
      .ok { nodes := [⟨3, "save", .save (.var 0)⟩],
            vars := [⟨0, "A", [1, 2, 2, 2], []⟩],
            nextId := 4 } ∧
    gAnnihilate.nodes.length = 1 + 2 := by
  refine ⟨isIdentityShuffle_iff,
          fun G i j i2 nm nm2 s1 s2 x hf hi =>
            sinkStep_transpose_inverse G i j i2 nm nm2 s1 s2 x hf hi,
          fun G i j i2 nm nm2 s1 s2 x hf hl hi =>
            sinkStep_transpose_noninverse G i j i2 nm nm2 s1 s2 x hf hl hi,
          by with_unfolding_all rfl, rfl⟩

/-- C2 witness: the rewiring conjunct applied to the concrete
annihilation graph. -/
theorem transpose_pair_annihilation_witness :
    sinkStep gAnnihilate ⟨2, "t1", .transpose (.node 1) [0, 2, 3, 1]⟩ =
      .ok (replaceAllUsesOfWith (.node 2) (.var 0) gAnnihilate, []) :=
  transpose_pair_annihilation.2.1 gAnnihilate 2 1 1 "t1" "t2"
    [0, 2, 3, 1] [0, 3, 1, 2] (.var 0) rfl rfl

/-!
## Pool-Relu swap (claim C6)
-/

/-- The swap fires on `Pool[Max] ← Relu ← X` with a single-user relu:
uses of the pool are rewired to a fresh `Relu ← Pool[Max] ← X` chain with
the same kernel, stride and pad. -/
theorem poolStep_swap (G : Graph) (i rlId : Nat) (nm rlName : String)
    (inp rlIn : NodeRef) (k s p : Nat)
    (hrl : G.getRL inp = some (rlId, rlName, rlIn))
    (hone : useCount G (.node rlId) = 1) :
    poolStep G ⟨i, nm, .pool .Max inp k s p⟩ =
      (replaceAllUsesOfWith (.node i) (.node (G.nextId + 1))
        { G with nodes := G.nodes ++ [⟨G.nextId, nm, .pool .Max rlIn k s p⟩, ⟨G.nextId + 1, rlName, .relu (.node G.nextId)⟩], nextId := G.nextId + 2 },
       [G.nextId, G.nextId + 1]) := by
  simp [poolStep, hrl, hone, Graph.addNode]

/-- The swap never fires on an average pool. -/
theorem poolStep_avg_noop (G : Graph) (i : Nat) (nm : String)
    (inp : NodeRef) (k s p : Nat) :
    poolStep G ⟨i, nm, .pool .Avg inp k s p⟩ = (G, []) := by
  rw [poolStep]
  cases h : G.getRL inp <;> simp [h]

/-- The swap never fires when the relu has a use count other than one. -/
theorem poolStep_multiuser_noop (G : Graph) (i rlId : Nat) (nm rlName : String)
    (inp rlIn : NodeRef) (md : PoolMode) (k s p : Nat)
    (hrl : G.getRL inp = some (rlId, rlName, rlIn))
    (hcnt : useCount G (.node rlId) ≠ 1) :
    poolStep G ⟨i, nm, .pool md inp k s p⟩ = (G, []) := by
  cases md <;> simp [poolStep, hrl, hcnt]

/-- The swap never fires when the pool's input is not a relu. -/
theorem poolStep_norelu_noop (G : Graph) (i : Nat) (nm : String)
    (inp : NodeRef) (md : PoolMode) (k s p : Nat)
    (hrl : G.getRL inp = none) :
    poolStep G ⟨i, nm, .pool md inp k s p⟩ = (G, []) := by
  simp [poolStep, hrl]

/-- C6: `Optimize-Pool` rewires `Pool[Max] ← Relu ← X` (relu single-use)
to a fresh `Relu ← Pool[Max] ← X` chain with the same kernel, stride and
pad, and fires in no other case: not for average pools, not for a relu
with two or more users, not when the input is no relu.  Concretely, the
spec's scenario 4 swaps and its scenario 5 (relu feeding a second Save)
leaves the graph unchanged. -/
theorem pool_relu_swap :
    (∀ (G : Graph) (i rlId : Nat) (nm rlName : String) (inp rlIn : NodeRef)
        (k s p : Nat),
      G.getRL inp = some (rlId, rlName, rlIn) →
      useCount G (.node rlId) = 1 →
      poolStep G ⟨i, nm, .pool .Max inp k s p⟩ =
        (replaceAllUsesOfWith (.node i) (.node (G.nextId + 1))
          { G with nodes := G.nodes ++ [⟨G.nextId, nm, .pool .Max rlIn k s p⟩, ⟨G.nextId + 1, rlName, .relu (.node G.nextId)⟩], nextId := G.nextId + 2 },
         [G.nextId, G.nextId + 1])) ∧
    (∀ (G : Graph) (i : Nat) (nm : String) (inp : NodeRef) (k s p : Nat),
      poolStep G ⟨i, nm, .pool .Avg inp k s p⟩ = (G, [])) ∧
    (∀ (G : Graph) (i rlId : Nat) (nm rlName : String) (inp rlIn : NodeRef)
        (md : PoolMode) (k s p : Nat),
      G.getRL inp = some (rlId, rlName, rlIn) →
      useCount G (.node rlId) ≠ 1 →
      poolStep G ⟨i, nm, .pool md inp k s p⟩ = (G, [])) ∧
    (∀ (G : Graph) (i : Nat) (nm : String) (inp : NodeRef) (md : PoolMode)
        (k s p : Nat),
      G.getRL inp = none →
      poolStep G ⟨i, nm, .pool md inp k s p⟩ = (G, [])) ∧
    optimize rsqrtEx gPoolRelu OptimizationMode.Infer =
      .ok { nodes := [⟨3, "save", .save (.node 5)⟩,
                      ⟨4, "pl", .pool .Max (.var 0) 2 2 0⟩,
                      ⟨5, "rl", .relu (.node 4)⟩],
            vars := [⟨0, "X", [1, 4, 4, 1], []⟩],
            nextId := 6 } ∧
    optimize rsqrtEx gPoolReluTwoUsers OptimizationMode.Infer =
      .ok gPoolReluTwoUsers := by
  exact ⟨fun G i rlId nm rlName inp rlIn k s p h1 h2 =>
           poolStep_swap G i rlId nm rlName inp rlIn k s p h1 h2,
         fun G i nm inp k s p => poolStep_avg_noop G i nm inp k s p,
         fun G i rlId nm rlName inp rlIn md k s p h1 h2 =>
           poolStep_multiuser_noop G i rlId nm rlName inp rlIn md k s p h1 h2,
         fun G i nm inp md k s p h =>
           poolStep_norelu_noop G i nm inp md k s p h,
         by with_unfolding_all rfl,
         by with_unfolding_all rfl⟩

/-- C6 witness: the swap conjunct applied to the concrete pool-relu
graph. -/
theorem pool_relu_swap_witness :
    poolStep gPoolRelu ⟨2, "pl", .pool .Max (.node 1) 2 2 0⟩ =
      (replaceAllUsesOfWith (.node 2) (.node 5)
        { gPoolRelu with nodes := gPoolRelu.nodes ++ [⟨4, "pl", .pool .Max (.var 0) 2 2 0⟩, ⟨5, "rl", .relu (.node 4)⟩], nextId := 6 },
       [4, 5]) :=
  pool_relu_swap.1 gPoolRelu 2 1 "pl" "rl" (.node 1) (.var 0) 2 2 0 rfl rfl

/-- C3 witness: the DCE-soundness conjunct applied to the concrete
pool-relu graph and its relu node. -/
theorem dce_leaves_no_dead_nodes_witness :
    usedIn (DCE gPoolRelu).nodes (NodeRef.node 1) ∨
      (⟨1, "rl", .relu (.var 0)⟩ : Node).isSave = true :=
  dce_leaves_no_dead_nodes.1 gPoolRelu ⟨1, "rl", .relu (.var 0)⟩ (by decide)

/-!
## Concat-transpose sinking (claim C5)
-/

/-- The collection loop comes back empty-handed exactly when some concat
operand is not a transpose. -/
theorem collectTRs_eq_none (G : Graph) (rs : List NodeRef) :
    collectTRs G rs = none ↔ ∃ r ∈ rs, G.getTR r = none := by
  induction rs with
  | nil => simp [collectTRs]
  | cons r rs ih =>
    rw [collectTRs]
    cases h : G.getTR r with
    | none => simp [h]
    | some t => simp [h, Option.map_eq_none', ih]

/-- A successful collection has one entry per concat operand. -/
theorem collectTRs_length (G : Graph) : ∀ (rs : List NodeRef)
    (ts : List (String × NodeRef × List Nat)),
    collectTRs G rs = some ts → ts.length = rs.length := by
  intro rs
  induction rs with
  | nil =>
    intro ts h
    rw [collectTRs] at h
    simp only [Option.some.injEq] at h
    simp [h.symm]
  | cons r rs ih =>
    intro ts h
    rw [collectTRs] at h
    cases hg : G.getTR r with
    | none => rw [hg] at h; simp at h
    | some t =>
      rw [hg] at h
      cases hc : collectTRs G rs with
      | none => rw [hc] at h; simp at h
      | some ts' =>
        rw [hc] at h
        simp only [Option.map_some', Option.some.injEq] at h
        subst h
        simp [ih ts' hc]

/-- The concat rule fires when every operand is a transpose and all masks
agree: uses of the concat are rewired to a fresh
`Transpose(σ) ← Concat(σ[dim], inputs)` chain. -/
theorem sinkStep_concat_sink (G : Graph) (i : Nat) (nm fName : String)
    (ins : List NodeRef) (dim nd : Nat) (sh : List Nat) (fIn : NodeRef)
    (tl : List (String × NodeRef × List Nat))
    (hlen : 1 < ins.length)
    (hcol : collectTRs G ins = some ((fName, fIn, sh) :: tl))
    (hall : ∀ t ∈ (fName, fIn, sh) :: tl, t.2.2 = sh)
    (hdim : sh.get? dim = some nd) :
    sinkStep G ⟨i, nm, .concat ins dim⟩ =
      .ok (replaceAllUsesOfWith (.node i) (.node (G.nextId + 1)) { G with nodes := G.nodes ++ [⟨G.nextId, nm, .concat (((fName, fIn, sh) :: tl).map (fun t => t.2.1)) nd⟩, ⟨G.nextId + 1, fName, .transpose (.node G.nextId) sh⟩], nextId := G.nextId + 2 }, [G.nextId, G.nextId + 1]) := by
  have hnle : ¬(ins.length ≤ 1) := by omega
  have hallb : ((fName, fIn, sh) :: tl).all (fun t => t.2.2 = sh) = true := by
    rw [List.all_eq_true]
    intro t ht
    exact decide_eq_true (hall t ht)
  have hdim2 : sh[dim]? = some nd := by simpa using hdim
  simp [sinkStep, hnle, hcol, hallb, hdim2, Graph.addNode]

/-- The concat rule bails out when some operand is not a transpose. -/
theorem sinkStep_concat_bail_notr (G : Graph) (i : Nat) (nm : String)
    (ins : List NodeRef) (dim : Nat)
    (hlen : 1 < ins.length)
    (hcol : collectTRs G ins = none) :
    sinkStep G ⟨i, nm, .concat ins dim⟩ = .ok (G, []) := by
  have hnle : ¬(ins.length ≤ 1) := by omega
  simp [sinkStep, hnle, hcol]

/-- The concat rule bails out when the masks disagree. -/
theorem sinkStep_concat_bail_mask (G : Graph) (i : Nat) (nm fName : String)
    (ins : List NodeRef) (dim : Nat) (sh : List Nat) (fIn : NodeRef)
    (tl : List (String × NodeRef × List Nat))
    (hlen : 1 < ins.length)
    (hcol : collectTRs G ins = some ((fName, fIn, sh) :: tl))
    (hbad : ∃ t ∈ (fName, fIn, sh) :: tl, t.2.2 ≠ sh) :
    sinkStep G ⟨i, nm, .concat ins dim⟩ = .ok (G, []) := by
  have hnle : ¬(ins.length ≤ 1) := by omega
  have hallb : ((fName, fIn, sh) :: tl).all (fun t => t.2.2 = sh) = false := by
    obtain ⟨t, ht, hne⟩ := hbad
    rw [List.all_eq_false]
    exact ⟨t, ht, by simpa using hne⟩
  simp [sinkStep, hnle, hcol, hallb]

/-- C5: for a Concat whose operands are all Transposes sharing one
permutation, Sink-Transpose replaces the Concat's uses with
`Transpose(σ) ← Concat` over the transposes' inputs, the concat axis
rewritten from `d` to `σ[d]`; it bails out when some operand is not a
Transpose (exactly the case in which the collection loop stops short) or
when the masks disagree.  Concretely, the spec's scenario 2 becomes
`Save ← Transpose([0,3,1,2]) ← Concat(dim=3, [A, B])`. -/
theorem concat_transpose_sink :
    (∀ (G : Graph) (i : Nat) (nm fName : String) (ins : List NodeRef)
        (dim nd : Nat) (sh : List Nat) (fIn : NodeRef)
        (tl : List (String × NodeRef × List Nat)),
      1 < ins.length →
      collectTRs G ins = some ((fName, fIn, sh) :: tl) →
      (∀ t ∈ (fName, fIn, sh) :: tl, t.2.2 = sh) →
      sh.get? dim = some nd →
      sinkStep G ⟨i, nm, .concat ins dim⟩ =
        .ok (replaceAllUsesOfWith (.node i) (.node (G.nextId + 1)) { G with nodes := G.nodes ++ [⟨G.nextId, nm, .concat (((fName, fIn, sh) :: tl).map (fun t => t.2.1)) nd⟩, ⟨G.nextId + 1, fName, .transpose (.node G.nextId) sh⟩], nextId := G.nextId + 2 }, [G.nextId, G.nextId + 1])) ∧
    (∀ (G : Graph) (rs : List NodeRef),
      collectTRs G rs = none ↔ ∃ r ∈ rs, G.getTR r = none) ∧
    (∀ (G : Graph) (i : Nat) (nm : String) (ins : List NodeRef) (dim : Nat),
      1 < ins.length → collectTRs G ins = none →
      sinkStep G ⟨i, nm, .concat ins dim⟩ = .ok (G, [])) ∧
    (∀ (G : Graph) (i : Nat) (nm fName : String) (ins : List NodeRef)
        (dim : Nat) (sh : List Nat) (fIn : NodeRef)
        (tl : List (String × NodeRef × List Nat)),
      1 < ins.length →
      collectTRs G ins = some ((fName, fIn, sh) :: tl) →
      (∃ t ∈ (fName, fIn, sh) :: tl, t.2.2 ≠ sh) →
      sinkStep G ⟨i, nm, .concat ins dim⟩ = .ok (G, [])) ∧
    optimize rsqrtEx gConcatSink OptimizationMode.Infer =
      .ok { nodes := [⟨5, "save", .save (.node 7)⟩,
                      ⟨6, "cc", .concat [.var 0, .var 1] 3⟩,
                      ⟨7, "ta", .transpose (.node 6) [0, 3, 1, 2]⟩],
            vars := [⟨0, "A", [1, 2, 2, 2], []⟩, ⟨1, "B", [1, 2, 2, 2], []⟩],
            nextId := 8 } := by
  exact ⟨fun G i nm fName ins dim nd sh fIn tl h1 h2 h3 h4 =>
           sinkStep_concat_sink G i nm fName ins dim nd sh fIn tl h1 h2 h3 h4,
         collectTRs_eq_none,
         fun G i nm ins dim h1 h2 =>
           sinkStep_concat_bail_notr G i nm ins dim h1 h2,
         fun G i nm fName ins dim sh fIn tl h1 h2 h3 =>
           sinkStep_concat_bail_mask G i nm fName ins dim sh fIn tl h1 h2 h3,
         by with_unfolding_all rfl⟩

/-- C5 witness: the positive conjunct applied to the concrete
concat-sinking graph. -/
theorem concat_transpose_sink_witness :
    sinkStep gConcatSink ⟨4, "cc", .concat [.node 2, .node 3] 1⟩ =
      .ok (replaceAllUsesOfWith (.node 4) (.node 7) { gConcatSink with nodes := gConcatSink.nodes ++ [⟨6, "cc", .concat [.var 0, .var 1] 3⟩, ⟨7, "ta", .transpose (.node 6) [0, 3, 1, 2]⟩], nextId := 8 }, [6, 7]) := by
  have h := concat_transpose_sink.1 gConcatSink 4 "cc" "ta"
    [.node 2, .node 3] 1 3 [0, 3, 1, 2] (.var 0)
    [("tb", .var 1, [0, 3, 1, 2])] (by decide) (by decide) (by decide) rfl
  simpa using h

/-!
## BatchNorm folding (claim C1)
-/

/-- Pointwise description of the filter loop: element `j` of the output is
the input element scaled by `A = γ[c] * rsqrt (σ²[c] + ε)` for
`c = getDimForPtr dims 0 (start + j)`. -/
theorem bnFoldFilterGo_sound (rsqrt : ℚ → ℚ) (eps : ℚ)
    (scaleD varD : List ℚ) (dims : List Nat) :
    ∀ (xs : List ℚ) (start : Nat) (ys : List ℚ),
    bnFoldFilterGo rsqrt eps scaleD varD dims start xs = .ok ys →
    ys.length = xs.length ∧
    ∀ (j : Nat) (x v g : ℚ), xs[j]? = some x →
      varD[getDimForPtr dims 0 (start + j)]? = some v →
      scaleD[getDimForPtr dims 0 (start + j)]? = some g →
      ys[j]? = some (x * (g * rsqrt (v + eps))) := by
  intro xs
  induction xs with
  | nil =>
    intro start ys h
    rw [bnFoldFilterGo] at h
    simp only [Except.ok.injEq] at h
    subst h
    refine ⟨rfl, ?_⟩
    intro j x v g hx
    simp at hx
  | cons x xs ih =>
    intro start ys h
    rw [bnFoldFilterGo] at h
    cases hv : varD[getDimForPtr dims 0 start]? with
    | none => simp [atD, hv, Bind.bind, Except.bind] at h
    | some v0 =>
      cases hg : scaleD[getDimForPtr dims 0 start]? with
      | none => simp [atD, hv, hg, Bind.bind, Except.bind] at h
      | some g0 =>
        cases hrec : bnFoldFilterGo rsqrt eps scaleD varD dims (start + 1) xs with
        | error e => simp [atD, hv, hg, hrec, Bind.bind, Except.bind] at h
        | ok ys' =>
          simp only [atD, List.get?_eq_getElem?, hv, hg, hrec, Bind.bind,
            Except.bind, Except.ok.injEq] at h
          subst h
          obtain ⟨ihlen, ihpt⟩ := ih (start + 1) ys' hrec
          refine ⟨by simp [ihlen], ?_⟩
          intro j x' v' g' hx hv' hg'
          cases j with
          | zero =>
            simp only [Nat.add_zero] at hv' hg'
            rw [hv] at hv'
            rw [hg] at hg'
            simp only [Option.some.injEq] at hv' hg'
            simp only [List.getElem?_cons_zero, Option.some.injEq] at hx
            subst hx hv' hg'
            simp
          | succ j =>
            have e : start + (j + 1) = (start + 1) + j := by omega
            rw [e] at hv' hg'
            simp only [List.getElem?_cons_succ] at hx ⊢
            exact ihpt j x' v' g' hx hv' hg'

/-- Pointwise description of the bias loop: element `j` of the output is
`b·A + B` with `A = γ[c] * rsqrt (σ²[c] + ε)` and `B = β[c] - μ[c]·A`,
for `c = getDimForPtr dims 0 (start + j)`. -/
theorem bnFoldBiasGo_sound (rsqrt : ℚ → ℚ) (eps : ℚ)
    (scaleD biasD meanD varD : List ℚ) (dims : List Nat) :
    ∀ (xs : List ℚ) (start : Nat) (ys : List ℚ),
    bnFoldBiasGo rsqrt eps scaleD biasD meanD varD dims start xs = .ok ys →
    ys.length = xs.length ∧
    ∀ (j : Nat) (x mu v g beta : ℚ), xs[j]? = some x →
      meanD[getDimForPtr dims 0 (start + j)]? = some mu →
      varD[getDimForPtr dims 0 (start + j)]? = some v →
      scaleD[getDimForPtr dims 0 (start + j)]? = some g →
      biasD[getDimForPtr dims 0 (start + j)]? = some beta →
      ys[j]? = some
        (x * (g * rsqrt (v + eps)) + (beta - mu * (g * rsqrt (v + eps)))) := by
  intro xs
  induction xs with
  | nil =>
    intro start ys h
    rw [bnFoldBiasGo] at h
    simp only [Except.ok.injEq] at h
    subst h
    refine ⟨rfl, ?_⟩
    intro j x mu v g beta hx
    simp at hx
  | cons x xs ih =>
    intro start ys h
    rw [bnFoldBiasGo] at h
    cases hm : meanD[getDimForPtr dims 0 start]? with
    | none => simp [atD, hm, Bind.bind, Except.bind] at h
    | some m0 =>
      cases hv : varD[getDimForPtr dims 0 start]? with
      | none => simp [atD, hm, hv, Bind.bind, Except.bind] at h
      | some v0 =>
        cases hg : scaleD[getDimForPtr dims 0 start]? with
        | none => simp [atD, hm, hv, hg, Bind.bind, Except.bind] at h
        | some g0 =>
          cases hb : biasD[getDimForPtr dims 0 start]? with
          | none => simp [atD, hm, hv, hg, hb, Bind.bind, Except.bind] at h
          | some b0 =>
            cases hrec : bnFoldBiasGo rsqrt eps scaleD biasD meanD varD dims
                (start + 1) xs with
            | error e =>
              simp [atD, hm, hv, hg, hb, hrec, Bind.bind, Except.bind] at h
            | ok ys' =>
              simp only [atD, List.get?_eq_getElem?, hm, hv, hg, hb, hrec,
                Bind.bind, Except.bind, Except.ok.injEq] at h
              subst h
              obtain ⟨ihlen, ihpt⟩ := ih (start + 1) ys' hrec
              refine ⟨by simp [ihlen], ?_⟩
              intro j x' mu' v' g' beta' hx hm' hv' hg' hb'
              cases j with
              | zero =>
                simp only [Nat.add_zero] at hm' hv' hg' hb'
                rw [hm] at hm'
                rw [hv] at hv'
                rw [hg] at hg'
                rw [hb] at hb'
                simp only [Option.some.injEq] at hm' hv' hg' hb'
                simp only [List.getElem?_cons_zero, Option.some.injEq] at hx
                subst hx hm' hv' hg' hb'
                simp
              | succ j =>
                have e : start + (j + 1) = (start + 1) + j := by omega
                rw [e] at hm' hv' hg' hb'
                simp only [List.getElem?_cons_succ] at hx ⊢
                exact ihpt j x' mu' v' g' beta' hx hm' hv' hg' hb'

/-- The fold fires on `BatchNorm ← Convolution` with a single-use
convolution: the filter and bias variables are overwritten with the folded
data and every use of the BN is rewired to the convolution (the BN's
input). -/
theorem bnStep_fold (rsqrt : ℚ → ℚ) (G : Graph) (i cvId : Nat)
    (nm : String) (inp bb sc mn vr fRef bRef : NodeRef) (ci : Nat)
    (eps mom : ℚ) (fv sv vv cbv sv1 bv1 mv1 vv1 : Variable)
    (newF newB : List ℚ)
    (hcv : G.getCV inp = some (cvId, fRef, bRef))
    (hone : useCount G (.node cvId) = 1)
    (hfv : castVar G fRef = .ok fv)
    (hsv : castVar G sc = .ok sv)
    (hvv : castVar G vr = .ok vv)
    (hF : bnFoldFilterGo rsqrt eps sv.data vv.data fv.dims 0 fv.data = .ok newF)
    (hcb : castVar (G.setVarData fv.id newF) bRef = .ok cbv)
    (hsv1 : castVar (G.setVarData fv.id newF) sc = .ok sv1)
    (hbv1 : castVar (G.setVarData fv.id newF) bb = .ok bv1)
    (hmv1 : castVar (G.setVarData fv.id newF) mn = .ok mv1)
    (hvv1 : castVar (G.setVarData fv.id newF) vr = .ok vv1)
    (hB : bnFoldBiasGo rsqrt eps sv1.data bv1.data mv1.data vv1.data
      cbv.dims 0 cbv.data = .ok newB) :
    bnStep rsqrt G ⟨i, nm, .batchNorm inp bb sc mn vr ci eps mom⟩ =
      .ok (replaceAllUsesOfWith (.node i) inp
        ((G.setVarData fv.id newF).setVarData cbv.id newB)) := by
  simp [bnStep, hcv, hone, hfv, hsv, hvv, hF, hcb, hsv1, hbv1, hmv1, hvv1,
    hB, Bind.bind, Except.bind]

/-- The fold never fires when the BN's input is not a convolution. -/
theorem bnStep_nonconv (rsqrt : ℚ → ℚ) (G : Graph) (i : Nat) (nm : String)
    (inp bb sc mn vr : NodeRef) (ci : Nat) (eps mom : ℚ)
    (hcv : G.getCV inp = none) :
    bnStep rsqrt G ⟨i, nm, .batchNorm inp bb sc mn vr ci eps mom⟩ = .ok G := by
  simp [bnStep, hcv]

/-- The fold never fires when the convolution has a use count other than
one. -/
theorem bnStep_multiuser (rsqrt : ℚ → ℚ) (G : Graph) (i cvId : Nat)
    (nm : String) (inp bb sc mn vr fRef bRef : NodeRef) (ci : Nat)
    (eps mom : ℚ)
    (hcv : G.getCV inp = some (cvId, fRef, bRef))
    (hone : useCount G (.node cvId) ≠ 1) :
    bnStep rsqrt G ⟨i, nm, .batchNorm inp bb sc mn vr ci eps mom⟩ = .ok G := by
  simp [bnStep, hcv, hone]

/-- C1: for `BatchNorm ← Convolution ← X` with a single-use convolution
the fold overwrites the convolution's filter and bias in place — each
filter element becomes `W·A[c]` and each bias element `b·A[c] + B[c]`,
with `A[c] = γ[c] * rsqrt (σ²[c] + ε)` (the embedding of `γ/√(σ²+ε)`) and
`B[c] = β[c] − μ[c]·A[c]`, `c` the axis-0 coordinate of the element — and
rewires every use of the BN to the convolution; the fold does nothing when
the convolution has a use count other than one or when the BN's input is
not a convolution.  The spec's scenario 6 is checked end-to-end. -/
theorem bn_fold_into_conv :
    (∀ (rsqrt : ℚ → ℚ) (G : Graph) (i cvId : Nat) (nm : String)
        (inp bb sc mn vr fRef bRef : NodeRef) (ci : Nat) (eps mom : ℚ)
        (fv sv vv cbv sv1 bv1 mv1 vv1 : Variable) (newF newB : List ℚ),
      G.getCV inp = some (cvId, fRef, bRef) →
      useCount G (.node cvId) = 1 →
      castVar G fRef = .ok fv →
      castVar G sc = .ok sv →
      castVar G vr = .ok vv →
      bnFoldFilterGo rsqrt eps sv.data vv.data fv.dims 0 fv.data = .ok newF →
      castVar (G.setVarData fv.id newF) bRef = .ok cbv →
      castVar (G.setVarData fv.id newF) sc = .ok sv1 →
      castVar (G.setVarData fv.id newF) bb = .ok bv1 →
      castVar (G.setVarData fv.id newF) mn = .ok mv1 →
      castVar (G.setVarData fv.id newF) vr = .ok vv1 →
      bnFoldBiasGo rsqrt eps sv1.data bv1.data mv1.data vv1.data
        cbv.dims 0 cbv.data = .ok newB →
      bnStep rsqrt G ⟨i, nm, .batchNorm inp bb sc mn vr ci eps mom⟩ =
        .ok (replaceAllUsesOfWith (.node i) inp
          ((G.setVarData fv.id newF).setVarData cbv.id newB))) ∧
    (∀ (rsqrt : ℚ → ℚ) (eps : ℚ) (scaleD varD : List ℚ) (dims : List Nat)
        (xs ys : List ℚ),
      bnFoldFilterGo rsqrt eps scaleD varD dims 0 xs = .ok ys →
      ∀ (j : Nat) (x v g : ℚ), xs[j]? = some x →
        varD[getDimForPtr dims 0 j]? = some v →
        scaleD[getDimForPtr dims 0 j]? = some g →
        ys[j]? = some (x * (g * rsqrt (v + eps)))) ∧
    (∀ (rsqrt : ℚ → ℚ) (eps : ℚ) (scaleD biasD meanD varD : List ℚ)
        (dims : List Nat) (xs ys : List ℚ),
      bnFoldBiasGo rsqrt eps scaleD biasD meanD varD dims 0 xs = .ok ys →
      ∀ (j : Nat) (x mu v g beta : ℚ), xs[j]? = some x →
        meanD[getDimForPtr dims 0 j]? = some mu →
        varD[getDimForPtr dims 0 j]? = some v →
        scaleD[getDimForPtr dims 0 j]? = some g →
        biasD[getDimForPtr dims 0 j]? = some beta →
        ys[j]? = some
          (x * (g * rsqrt (v + eps)) + (beta - mu * (g * rsqrt (v + eps))))) ∧
    (∀ (rsqrt : ℚ → ℚ) (G : Graph) (i : Nat) (nm : String)
        (inp bb sc mn vr : NodeRef) (ci : Nat) (eps mom : ℚ),
      G.getCV inp = none →
      bnStep rsqrt G ⟨i, nm, .batchNorm inp bb sc mn vr ci eps mom⟩ = .ok G) ∧
    (∀ (rsqrt : ℚ → ℚ) (G : Graph) (i cvId : Nat) (nm : String)
        (inp bb sc mn vr fRef bRef : NodeRef) (ci : Nat) (eps mom : ℚ),
      G.getCV inp = some (cvId, fRef, bRef) →
      useCount G (.node cvId) ≠ 1 →
      bnStep rsqrt G ⟨i, nm, .batchNorm inp bb sc mn vr ci eps mom⟩ = .ok G) ∧
    optimize rsqrtEx gConvBN OptimizationMode.Infer =
      .ok { nodes := [⟨0, "cv", .conv (.var 6) (.var 0) (.var 1) 1 1 0⟩,
                      ⟨2, "save", .save (.node 0)⟩],
            vars := [⟨0, "filter", [2, 1, 1, 1], [6, 8]⟩,
                     ⟨1, "cbias", [2], [11, 13]⟩,
                     ⟨6, "X", [1, 3, 3, 1], []⟩],
            nextId := 3 } := by
  refine ⟨fun rsqrt G i cvId nm inp bb sc mn vr fRef bRef ci eps mom
            fv sv vv cbv sv1 bv1 mv1 vv1 newF newB
            h1 h2 h3 h4 h5 h6 h7 h8 h9 h10 h11 h12 =>
          bnStep_fold rsqrt G i cvId nm inp bb sc mn vr fRef bRef ci eps mom
            fv sv vv cbv sv1 bv1 mv1 vv1 newF newB
            h1 h2 h3 h4 h5 h6 h7 h8 h9 h10 h11 h12, ?_, ?_, ?_, ?_, ?_⟩
  · intro rsqrt eps scaleD varD dims xs ys h j x v g hx hv hg
    have := (bnFoldFilterGo_sound rsqrt eps scaleD varD dims xs 0 ys h).2 j x v g
    simp only [Nat.zero_add] at this
    exact this hx hv hg
  · intro rsqrt eps scaleD biasD meanD varD dims xs ys h j x mu v g beta
      hx hm hv hg hb
    have := (bnFoldBiasGo_sound rsqrt eps scaleD biasD meanD varD dims
      xs 0 ys h).2 j x mu v g beta
    simp only [Nat.zero_add] at this
    exact this hx hm hv hg hb
  · exact fun rsqrt G i nm inp bb sc mn vr ci eps mom h =>
      bnStep_nonconv rsqrt G i nm inp bb sc mn vr ci eps mom h
  · exact fun rsqrt G i cvId nm inp bb sc mn vr fRef bRef ci eps mom h1 h2 =>
      bnStep_multiuser rsqrt G i cvId nm inp bb sc mn vr fRef bRef ci eps
        mom h1 h2
  · with_unfolding_all rfl

/-- C1 witness: the fold conjunct applied to the BN node of the concrete
scenario-6 graph, producing `W' = [6, 8]` and `b' = [11, 13]`. -/
theorem bn_fold_into_conv_witness :
    bnStep rsqrtEx gConvBN ⟨1, "bn", .batchNorm (.node 0) (.var 3) (.var 2) (.var 4) (.var 5) 1 0 (9 / 10)⟩ =
      .ok (replaceAllUsesOfWith (.node 1) (.node 0)
        ((gConvBN.setVarData 0 [6, 8]).setVarData 1 [11, 13])) :=
  bn_fold_into_conv.1 rsqrtEx gConvBN 1 0 "bn" (.node 0) (.var 3) (.var 2)
    (.var 4) (.var 5) (.var 0) (.var 1) 1 0 (9 / 10)
    ⟨0, "filter", [2, 1, 1, 1], [3, 4]⟩ ⟨2, "scale", [2], [2, 2]⟩
    ⟨5, "variance", [2], [1, 1]⟩ ⟨1, "cbias", [2], [5, 6]⟩
    ⟨2, "scale", [2], [2, 2]⟩ ⟨3, "bbias", [2], [1, 1]⟩
    ⟨4, "mean", [2], [0, 0]⟩ ⟨5, "variance", [2], [1, 1]⟩
    [6, 8] [11, 13]
    (by with_unfolding_all rfl) (by with_unfolding_all rfl)
    (by with_unfolding_all rfl) (by with_unfolding_all rfl)
    (by with_unfolding_all rfl) (by with_unfolding_all rfl)
    (by with_unfolding_all rfl) (by with_unfolding_all rfl)
    (by with_unfolding_all rfl) (by with_unfolding_all rfl)
    (by with_unfolding_all rfl) (by with_unfolding_all rfl)

/-!
## Mode gating of the BatchNorm fold (claim C8)
-/

/-- A sink step never touches the variable list. -/
theorem sinkStep_vars (G : Graph) (n : Node) (G' : Graph)
    (created : List Nat) (h : sinkStep G n = .ok (G', created)) :
    G'.vars = G.vars := by
  unfold sinkStep at h
  repeat' split at h
  all_goals (try simp only [Except.ok.injEq, Prod.mk.injEq] at h)
  all_goals
    first
      | (obtain ⟨rfl, rfl⟩ := h; rfl)
      | exact Except.noConfusion h

/-- A pool step never touches the variable list. -/
theorem poolStep_vars (G : Graph) (n : Node) (G' : Graph)
    (created : List Nat) (h : poolStep G n = (G', created)) :
    G'.vars = G.vars := by
  unfold poolStep at h
  repeat' split at h
  all_goals (try simp only [Prod.mk.injEq] at h)
  all_goals (obtain ⟨rfl, rfl⟩ := h; rfl)

/-- The sink pass never touches the variable list. -/
theorem sinkLoop_vars : ∀ (fuel : Nat) (G : Graph) (work : List Nat)
    (G' : Graph), sinkLoop fuel G work = .ok G' → G'.vars = G.vars := by
  intro fuel
  induction fuel with
  | zero =>
    intro G work G' h
    rw [sinkLoop] at h
    cases h
    rfl
  | succ fuel ih =>
    intro G work G' h
    cases work with
    | nil =>
      rw [sinkLoop] at h
      cases h
      rfl
    | cons i rest =>
      rw [sinkLoop] at h
      cases hf : G.findNode i with
      | none =>
        rw [hf] at h
        exact ih G rest G' h
      | some n =>
        rw [hf] at h
        replace h : (match sinkStep G n with
          | Except.error e => Except.error e
          | Except.ok (G2, created) => sinkLoop fuel G2 (rest ++ created)) =
            Except.ok G' := h
        cases hs : sinkStep G n with
        | error e =>
          rw [hs] at h
          exact Except.noConfusion h
        | ok p =>
          obtain ⟨G2, created⟩ := p
          rw [hs] at h
          have := ih G2 (rest ++ created) G' h
          rw [this, sinkStep_vars G n G2 created hs]

/-- The pool pass never touches the variable list. -/
theorem poolLoop_vars : ∀ (fuel : Nat) (G : Graph) (work : List Nat),
    (poolLoop fuel G work).vars = G.vars := by
  intro fuel
  induction fuel with
  | zero => intro G work; rw [poolLoop]
  | succ fuel ih =>
    intro G work
    cases work with
    | nil => rw [poolLoop]
    | cons i rest =>
      rw [poolLoop]
      cases hf : G.findNode i with
      | none => exact ih G rest
      | some n =>
        have := ih (poolStep G n).1 (rest ++ (poolStep G n).2)
        rw [this, poolStep_vars G n (poolStep G n).1 (poolStep G n).2 rfl]

/-- In `Train` mode the pipeline is exactly sink-transpose, pool
optimization and two DCE runs; the BatchNorm fold never executes. -/
theorem optimize_train_pipeline (rsqrt : ℚ → ℚ) (G : Graph) :
    optimize rsqrt G OptimizationMode.Train =
      Except.map (fun G1 => DCE (DCE (OptimizePool G1))) (SinkTranspose G) := by
  simp only [optimize]
  cases hs : SinkTranspose G with
  | error e => simp [Bind.bind, Except.bind, Except.map]
  | ok G1 =>
    simp only [Bind.bind, Except.bind, Except.map]
    rw [if_neg (by decide : ¬(OptimizationMode.Train = OptimizationMode.Infer))]

/-- C8: BatchNorm folding runs only in `Infer` mode.  In `Train` mode the
pipeline is sink-transpose, pool optimization and the two DCE runs with no
fold, so the result does not depend on the fold's arithmetic at all; every
surviving variable — filter and bias tensors included — is carried over
from the input graph unmodified; and on the concrete `Save ← BN ← Conv ← X`
graph `optimize(·, Train)` is the identity, the BatchNormalization node
included. -/
theorem train_mode_preserves_batchnorm :
    (∀ (rsqrt : ℚ → ℚ) (G : Graph),
      optimize rsqrt G OptimizationMode.Train =
        Except.map (fun G1 => DCE (DCE (OptimizePool G1))) (SinkTranspose G)) ∧
    (∀ (r1 r2 : ℚ → ℚ) (G : Graph),
      optimize r1 G OptimizationMode.Train =
        optimize r2 G OptimizationMode.Train) ∧
    (∀ (rsqrt : ℚ → ℚ) (G G' : Graph),
      optimize rsqrt G OptimizationMode.Train = .ok G' →
      ∀ v ∈ G'.vars, v ∈ G.vars) ∧
    optimize rsqrtEx gConvBN OptimizationMode.Train = .ok gConvBN := by
  refine ⟨optimize_train_pipeline,
          fun r1 r2 G =>
            (optimize_train_pipeline r1 G).trans
              (optimize_train_pipeline r2 G).symm,
          ?_, by with_unfolding_all rfl⟩
  intro rsqrt G G' h v hv
  rw [optimize_train_pipeline] at h
  cases hs : SinkTranspose G with
  | error e => rw [hs] at h; exact Except.noConfusion h
  | ok G1 =>
    rw [hs] at h
    simp only [Except.map, Except.ok.injEq] at h
    subst h
    have h1 := DCE_vars_mem _ v hv
    have h2 := DCE_vars_mem _ v h1
    have h3 : (OptimizePool G1).vars = G1.vars := poolLoop_vars _ G1 _
    have h4 : G1.vars = G.vars := sinkLoop_vars _ G _ G1 hs
    rw [h3, h4] at h2
    exact h2

/-- C8 witness: variable preservation applied to the concrete BN graph in
`Train` mode. -/
theorem train_mode_preserves_batchnorm_witness :
    (⟨0, "filter", [2, 1, 1, 1], [3, 4]⟩ : Variable) ∈ gConvBN.vars :=
  train_mode_preserves_batchnorm.2.2.1 rsqrtEx gConvBN gConvBN
    (by with_unfolding_all rfl)
    ⟨0, "filter", [2, 1, 1, 1], [3, 4]⟩ (by with_unfolding_all decide)

/-!
## The concat-arity assertion (claim C9)
-/

/-- Rewiring never changes the shape class of a node kind: a concat stays
a concat with the same number of operands. -/
theorem concatArity_replaceIn (a b : NodeRef) (k : NodeKind) :
    concatArity (NodeKind.replaceIn a b k) = concatArity k := by
  cases k <;> simp [NodeKind.replaceIn, concatArity]

/-- `concatOKb` is likewise invariant under rewiring. -/
theorem concatOKb_replaceIn (a b : NodeRef) (k : NodeKind) :
    (NodeKind.replaceIn a b k).concatOKb = k.concatOKb := by
  cases k <;> simp [NodeKind.replaceIn, NodeKind.concatOKb]

/-- Node lookup through a rewiring: the found node is the rewired original
(ids are untouched). -/
theorem findNode_replaceAll (a b : NodeRef) (G : Graph) (i : Nat) :
    (replaceAllUsesOfWith a b G).findNode i =
      (G.findNode i).map (fun n => { n with kind := n.kind.replaceIn a b }) := by
  unfold Graph.findNode replaceAllUsesOfWith
  rw [List.find?_map]
  rfl

/-- Node lookup is stable under appending a node (lookup is
first-match). -/
theorem findNode_addNode (G : Graph) (nm : String) (k : NodeKind) (i : Nat)
    (n : Node) (h : G.findNode i = some n) :
    (G.addNode nm k).1.findNode i = some n := by
  have hn : (G.addNode nm k).1.nodes = G.nodes ++ [⟨G.nextId, nm, k⟩] := rfl
  unfold Graph.findNode at h ⊢
  rw [hn, List.find?_append, h]
  rfl

/-- A fresh node from `addNode` is a member of the result. -/
theorem mem_addNode (G : Graph) (nm : String) (k : NodeKind) (n : Node)
    (h : n ∈ G.nodes) : n ∈ (G.addNode nm k).1.nodes := by
  unfold Graph.addNode
  simp [h]

/-- `concatOK` survives a rewiring. -/
theorem concatOK_replaceAll (a b : NodeRef) (G : Graph) (hok : concatOK G) :
    concatOK (replaceAllUsesOfWith a b G) := by
  intro n hn
  unfold replaceAllUsesOfWith at hn
  simp only [List.mem_map] at hn
  obtain ⟨m, hm, rfl⟩ := hn
  rw [concatOKb_replaceIn]
  exact hok m hm

/-- `concatOK` survives appending a node whose kind passes the check. -/
theorem concatOK_addNode (G : Graph) (nm : String) (k : NodeKind)
    (hok : concatOK G) (hk : k.concatOKb = true) :
    concatOK (G.addNode nm k).1 := by
  intro n hn
  unfold Graph.addNode at hn
  simp only [List.mem_append, List.mem_singleton] at hn
  rcases hn with hn | rfl
  · exact hok n hn
  · exact hk

/-- In a graph with duplicate-free node ids, lookup by a member's id finds
that member. -/
theorem find_first_of_nodup : ∀ (ns : List Node) (n : Node),
    (ns.map Node.id).Nodup → n ∈ ns →
    ns.find? (fun x => x.id = n.id) = some n := by
  intro ns
  induction ns with
  | nil => intro n _ hm; cases hm
  | cons m ms ih =>
    intro n hnd hm
    simp only [List.map_cons, List.nodup_cons] at hnd
    rcases List.mem_cons.mp hm with rfl | hm2
    · simp [List.find?_cons]
    · rw [List.find?_cons]
      have hne : ¬(m.id = n.id) := by
        intro he
        exact hnd.1 (he ▸ List.mem_map_of_mem Node.id hm2)
      simp only [hne, decide_eq_false]
      exact ih n hnd.2 hm2

/-- In a graph with duplicate-free node ids, lookup by a member's id finds
that member. -/
theorem findNode_of_nodup (G : Graph) (n : Node)
    (hnd : (G.nodes.map Node.id).Nodup) (hm : n ∈ G.nodes) :
    G.findNode n.id = some n :=
  find_first_of_nodup G.nodes n hnd hm

/-- On a graph whose concats are well-formed, a sink step on a member node
never trips the concat-arity assertion. -/
theorem sinkStep_no_arity_error (G : Graph) (i : Nat) (nm : String)
    (k : NodeKind) (hok : concatOK G)
    (hm : (⟨i, nm, k⟩ : Node) ∈ G.nodes) :
    sinkStep G ⟨i, nm, k⟩ ≠ .error .concatArity := by
  intro hbad
  cases k with
  | batchNorm inp bb sc mn vr ci eps mom =>
    cases htr : G.getTR inp with
    | none => simp [sinkStep, htr] at hbad
    | some t =>
      obtain ⟨tn, ti, ts⟩ := t
      cases hsh : ts[ci]? with
      | none => simp [sinkStep, htr, hsh] at hbad
      | some nc => simp [sinkStep, htr, hsh] at hbad
  | relu inp =>
    cases htr : G.getTR inp with
    | none => simp [sinkStep, htr] at hbad
    | some t =>
      obtain ⟨tn, ti, ts⟩ := t
      simp [sinkStep, htr] at hbad
  | transpose inp mask1 =>
    cases htr : G.getTR inp with
    | none => simp [sinkStep, htr] at hbad
    | some t =>
      obtain ⟨tn, ti, mask2⟩ := t
      by_cases hlen : mask1.length = mask2.length
      · by_cases hid : isIdentityShuffle mask1 mask2 = true
        · simp [sinkStep, htr, hlen, hid] at hbad
        · simp [sinkStep, htr, hlen, Bool.eq_false_iff.mpr hid] at hbad
      · simp [sinkStep, htr, hlen] at hbad
  | arithmetic md lhs rhs =>
    cases hl : G.getTR lhs with
    | none => simp [sinkStep, hl] at hbad
    | some tL =>
      obtain ⟨ln, li, ls⟩ := tL
      cases hr : G.getTR rhs with
      | none => simp [sinkStep, hl, hr] at hbad
      | some tR =>
        obtain ⟨rn, ri, rs⟩ := tR
        by_cases hsh : ls = rs
        · simp [sinkStep, hl, hr, hsh] at hbad
        · simp [sinkStep, hl, hr, hsh] at hbad
  | concat ins dim =>
    have hins : 2 ≤ ins.length := by
      have := hok _ hm
      simpa [NodeKind.concatOKb] using this
    have hnle : ¬(ins.length ≤ 1) := by omega
    cases hcol : collectTRs G ins with
    | none => simp [sinkStep, hnle, hcol] at hbad
    | some trs =>
      cases trs with
      | nil => simp [sinkStep, hnle, hcol] at hbad
      | cons f tl =>
        obtain ⟨fn, fi, fs⟩ := f
        by_cases hall : (((fn, fi, fs) :: tl).all (fun t => t.2.2 = fs)) = true
        · cases hdim : fs[dim]? with
          | none => simp [sinkStep, hnle, hcol, hall, hdim] at hbad
          | some nd => simp [sinkStep, hnle, hcol, hall, hdim] at hbad
        · simp [sinkStep, hnle, hcol, Bool.eq_false_iff.mpr hall] at hbad
  | conv a b c d e f => simp [sinkStep] at hbad
  | pool a b c d e => simp [sinkStep] at hbad
  | save a => simp [sinkStep] at hbad

/-- On a graph whose concats are well-formed, a successful sink step on a
member node keeps all concats well-formed. -/
theorem sinkStep_concatOK (G : Graph) (i : Nat) (nm : String)
    (k : NodeKind) (G' : Graph) (created : List Nat) (hok : concatOK G)
    (hm : (⟨i, nm, k⟩ : Node) ∈ G.nodes)
    (h : sinkStep G ⟨i, nm, k⟩ = .ok (G', created)) : concatOK G' := by
  cases k with
  | batchNorm inp bb sc mn vr ci eps mom =>
    cases htr : G.getTR inp with
    | none =>
      simp [sinkStep, htr] at h
      rw [← h.1]
      exact hok
    | some t =>
      obtain ⟨tn, ti, ts⟩ := t
      cases hsh : ts[ci]? with
      | none => simp [sinkStep, htr, hsh] at h
      | some nc =>
        simp [sinkStep, htr, hsh] at h
        rw [← h.1]
        exact concatOK_replaceAll _ _ _
          (concatOK_addNode _ _ _ (concatOK_addNode _ _ _ hok rfl) rfl)
  | relu inp =>
    cases htr : G.getTR inp with
    | none =>
      simp [sinkStep, htr] at h
      rw [← h.1]
      exact hok
    | some t =>
      obtain ⟨tn, ti, ts⟩ := t
      simp [sinkStep, htr] at h
      rw [← h.1]
      exact concatOK_replaceAll _ _ _
        (concatOK_addNode _ _ _ (concatOK_addNode _ _ _ hok rfl) rfl)
  | transpose inp mask1 =>
    cases htr : G.getTR inp with
    | none =>
      simp [sinkStep, htr] at h
      rw [← h.1]
      exact hok
    | some t =>
      obtain ⟨tn, ti, mask2⟩ := t
      by_cases hlen : mask1.length = mask2.length
      · by_cases hid : isIdentityShuffle mask1 mask2 = true
        · simp [sinkStep, htr, hlen, hid] at h
          rw [← h.1]
          exact concatOK_replaceAll _ _ _ hok
        · simp [sinkStep, htr, hlen, Bool.eq_false_iff.mpr hid] at h
          rw [← h.1]
          exact hok
      · simp [sinkStep, htr, hlen] at h
  | arithmetic md lhs rhs =>
    cases hl : G.getTR lhs with
    | none =>
      simp [sinkStep, hl] at h
      rw [← h.1]
      exact hok
    | some tL =>
      obtain ⟨ln, li, ls⟩ := tL
      cases hr : G.getTR rhs with
      | none =>
        simp [sinkStep, hl, hr] at h
        rw [← h.1]
        exact hok
      | some tR =>
        obtain ⟨rn, ri, rs⟩ := tR
        by_cases hsh : ls = rs
        · simp [sinkStep, hl, hr, hsh] at h
          rw [← h.1]
          exact concatOK_replaceAll _ _ _
            (concatOK_addNode _ _ _ (concatOK_addNode _ _ _ hok rfl) rfl)
        · simp [sinkStep, hl, hr, hsh] at h
          rw [← h.1]
          exact hok
  | concat ins dim =>
    have hins : 2 ≤ ins.length := by
      have := hok _ hm
      simpa [NodeKind.concatOKb] using this
    have hnle : ¬(ins.length ≤ 1) := by omega
    cases hcol : collectTRs G ins with
    | none =>
      simp [sinkStep, hnle, hcol] at h
      rw [← h.1]
      exact hok
    | some trs =>
      cases trs with
      | nil =>
        simp [sinkStep, hnle, hcol] at h
        rw [← h.1]
        exact hok
      | cons f tl =>
        obtain ⟨fn, fi, fs⟩ := f
        by_cases hall : (((fn, fi, fs) :: tl).all (fun t => t.2.2 = fs)) = true
        · cases hdim : fs[dim]? with
          | none => simp [sinkStep, hnle, hcol, hall, hdim] at h
          | some nd =>
            simp [sinkStep, hnle, hcol, hall, hdim] at h
            rw [← h.1]
            refine concatOK_replaceAll _ _ _
              (concatOK_addNode _ _ _ (concatOK_addNode _ _ _ hok ?_) rfl)
            have hlen := collectTRs_length G ins ((fn, fi, fs) :: tl) hcol
            simp only [List.length_cons] at hlen
            simp only [NodeKind.concatOKb, List.length_cons, List.length_map]
            exact decide_eq_true (by omega)
        · simp [sinkStep, hnle, hcol, Bool.eq_false_iff.mpr hall] at h
          rw [← h.1]
          exact hok
  | conv a b c d e f =>
    simp [sinkStep] at h
    rw [← h.1]
    exact hok
  | pool a b c d e =>
    simp [sinkStep] at h
    rw [← h.1]
    exact hok
  | save a =>
    simp [sinkStep] at h
    rw [← h.1]
    exact hok

/-- Lookup survives the rewire-after-two-appends shape of a firing rule,
with the concat operand count unchanged. -/
theorem lookup_after_rewire (G : Graph) (a b : NodeRef) (nm1 : String)
    (k1 : NodeKind) (nm2 : String) (k2 : NodeKind) (j : Nat) (n : Node)
    (hf : G.findNode j = some n) :
    ∃ n', (replaceAllUsesOfWith a b
        ((G.addNode nm1 k1).1.addNode nm2 k2).1).findNode j = some n' ∧
      concatArity n'.kind = concatArity n.kind := by
  refine ⟨{ n with kind := n.kind.replaceIn a b }, ?_,
    concatArity_replaceIn a b n.kind⟩
  rw [findNode_replaceAll,
    findNode_addNode _ _ _ _ _ (findNode_addNode _ _ _ _ _ hf)]
  rfl

/-- Lookup survives a plain rewiring, with the concat operand count
unchanged. -/
theorem lookup_after_replace (G : Graph) (a b : NodeRef) (j : Nat)
    (n : Node) (hf : G.findNode j = some n) :
    ∃ n', (replaceAllUsesOfWith a b G).findNode j = some n' ∧
      concatArity n'.kind = concatArity n.kind := by
  refine ⟨{ n with kind := n.kind.replaceIn a b }, ?_,
    concatArity_replaceIn a b n.kind⟩
  rw [findNode_replaceAll, hf]
  rfl

/-- A successful sink step preserves every lookup up to rewiring: the
found node keeps its shape class, in particular its concat operand
count. -/
theorem sinkStep_preserves_lookup (G : Graph) (i : Nat) (nm : String)
    (k : NodeKind) (G' : Graph) (created : List Nat)
    (h : sinkStep G ⟨i, nm, k⟩ = .ok (G', created)) (j : Nat) (n : Node)
    (hf : G.findNode j = some n) :
    ∃ n', G'.findNode j = some n' ∧
      concatArity n'.kind = concatArity n.kind := by
  cases k with
  | batchNorm inp bb sc mn vr ci eps mom =>
    cases htr : G.getTR inp with
    | none =>
      simp [sinkStep, htr] at h
      rw [← h.1]
      exact ⟨n, hf, rfl⟩
    | some t =>
      obtain ⟨tn, ti, ts⟩ := t
      cases hsh : ts[ci]? with
      | none => simp [sinkStep, htr, hsh] at h
      | some nc =>
        simp [sinkStep, htr, hsh] at h
        rw [← h.1]
        exact lookup_after_rewire G _ _ _ _ _ _ j n hf
  | relu inp =>
    cases htr : G.getTR inp with
    | none =>
      simp [sinkStep, htr] at h
      rw [← h.1]
      exact ⟨n, hf, rfl⟩
    | some t =>
      obtain ⟨tn, ti, ts⟩ := t
      simp [sinkStep, htr] at h
      rw [← h.1]
      exact lookup_after_rewire G _ _ _ _ _ _ j n hf
  | transpose inp mask1 =>
    cases htr : G.getTR inp with
    | none =>
      simp [sinkStep, htr] at h
      rw [← h.1]
      exact ⟨n, hf, rfl⟩
    | some t =>
      obtain ⟨tn, ti, mask2⟩ := t
      by_cases hlen : mask1.length = mask2.length
      · by_cases hid : isIdentityShuffle mask1 mask2 = true
        · simp [sinkStep, htr, hlen, hid] at h
          rw [← h.1]
          exact lookup_after_replace G _ _ j n hf
        · simp [sinkStep, htr, hlen, Bool.eq_false_iff.mpr hid] at h
          rw [← h.1]
          exact ⟨n, hf, rfl⟩
      · simp [sinkStep, htr, hlen] at h
  | arithmetic md lhs rhs =>
    cases hl : G.getTR lhs with
    | none =>
      simp [sinkStep, hl] at h
      rw [← h.1]
      exact ⟨n, hf, rfl⟩
    | some tL =>
      obtain ⟨ln, li, ls⟩ := tL
      cases hr : G.getTR rhs with
      | none =>
        simp [sinkStep, hl, hr] at h
        rw [← h.1]
        exact ⟨n, hf, rfl⟩
      | some tR =>
        obtain ⟨rn, ri, rs⟩ := tR
        by_cases hsh : ls = rs
        · simp [sinkStep, hl, hr, hsh] at h
          rw [← h.1]
          exact lookup_after_rewire G _ _ _ _ _ _ j n hf
        · simp [sinkStep, hl, hr, hsh] at h
          rw [← h.1]
          exact ⟨n, hf, rfl⟩
  | concat ins dim =>
    by_cases hnle : ins.length ≤ 1
    · simp [sinkStep, hnle] at h
    · cases hcol : collectTRs G ins with
      | none =>
        simp [sinkStep, hnle, hcol] at h
        rw [← h.1]
        exact ⟨n, hf, rfl⟩
      | some trs =>
        cases trs with
        | nil =>
          simp [sinkStep, hnle, hcol] at h
          rw [← h.1]
          exact ⟨n, hf, rfl⟩
        | cons f tl =>
          obtain ⟨fn, fi, fs⟩ := f
          by_cases hall : (((fn, fi, fs) :: tl).all (fun t => t.2.2 = fs)) = true
          · cases hdim : fs[dim]? with
            | none => simp [sinkStep, hnle, hcol, hall, hdim] at h
            | some nd =>
              simp [sinkStep, hnle, hcol, hall, hdim] at h
              rw [← h.1]
              exact lookup_after_rewire G _ _ _ _ _ _ j n hf
          · simp [sinkStep, hnle, hcol, Bool.eq_false_iff.mpr hall] at h
            rw [← h.1]
            exact ⟨n, hf, rfl⟩
  | conv a b c d e f =>
    simp [sinkStep] at h
    rw [← h.1]
    exact ⟨n, hf, rfl⟩
  | pool a b c d e =>
    simp [sinkStep] at h
    rw [← h.1]
    exact ⟨n, hf, rfl⟩
  | save a =>
    simp [sinkStep] at h
    rw [← h.1]
    exact ⟨n, hf, rfl⟩

/-- The sink scan never returns the concat-arity error on a graph whose
concats are well-formed. -/
theorem sinkLoop_no_arity_error : ∀ (fuel : Nat) (G : Graph)
    (work : List Nat), concatOK G →
    sinkLoop fuel G work ≠ .error .concatArity := by
  intro fuel
  induction fuel with
  | zero =>
    intro G work hok h
    rw [sinkLoop] at h
    exact Except.noConfusion h
  | succ fuel ih =>
    intro G work hok h
    cases work with
    | nil =>
      rw [sinkLoop] at h
      exact Except.noConfusion h
    | cons i rest =>
      rw [sinkLoop] at h
      cases hf : G.findNode i with
      | none =>
        rw [hf] at h
        exact ih G rest hok h
      | some n =>
        rw [hf] at h
        replace h : (match sinkStep G n with
          | Except.error e => Except.error e
          | Except.ok (G2, created) => sinkLoop fuel G2 (rest ++ created)) =
            Except.error AssertKind.concatArity := h
        have hmem : n ∈ G.nodes := List.mem_of_find?_eq_some hf
        obtain ⟨ni, nnm, nk⟩ := n
        cases hs : sinkStep G ⟨ni, nnm, nk⟩ with
        | error e =>
          rw [hs] at h
          have he : e = AssertKind.concatArity := by
            simpa using h
          exact sinkStep_no_arity_error G ni nnm nk hok hmem (he ▸ hs)
        | ok p =>
          obtain ⟨G2, created⟩ := p
          rw [hs] at h
          exact ih G2 (rest ++ created)
            (sinkStep_concatOK G ni nnm nk G2 created hok hmem hs) h

/-- While a concat with at most one operand is still ahead in the
worklist, the sink scan cannot terminate normally: it reaches the node and
trips the assertion (or aborts earlier on another assertion). -/
theorem sinkLoop_bad_concat : ∀ (fuel : Nat) (G : Graph)
    (pre post : List Nat) (i : Nat) (n : Node) (ins : List NodeRef)
    (d : Nat), pre.length < fuel → G.findNode i = some n →
    n.kind = .concat ins d → ins.length ≤ 1 →
    ∀ G', sinkLoop fuel G (pre ++ i :: post) ≠ .ok G' := by
  intro fuel
  induction fuel with
  | zero =>
    intro G pre post i n ins d hlt
    omega
  | succ fuel ih =>
    intro G pre post i n ins d hlt hf hk hle G' h
    cases pre with
    | nil =>
      rw [List.nil_append, sinkLoop, hf] at h
      replace h : (match sinkStep G n with
        | Except.error e => Except.error e
        | Except.ok (G2, created) => sinkLoop fuel G2 (post ++ created)) =
          Except.ok G' := h
      have hstep : sinkStep G n = .error .concatArity := by
        obtain ⟨ni, nnm, nk⟩ := n
        simp only at hk
        subst hk
        simp [sinkStep, hle]
      rw [hstep] at h
      exact Except.noConfusion h
    | cons jj pre2 =>
      rw [List.cons_append, sinkLoop] at h
      cases hfj : G.findNode jj with
      | none =>
        rw [hfj] at h
        have hlt2 : pre2.length < fuel := by
          simp only [List.length_cons] at hlt
          omega
        exact ih G pre2 post i n ins d hlt2 hf hk hle G' h
      | some m =>
        rw [hfj] at h
        replace h : (match sinkStep G m with
          | Except.error e => Except.error e
          | Except.ok (G2, created) =>
            sinkLoop fuel G2 ((pre2 ++ i :: post) ++ created)) =
            Except.ok G' := h
        obtain ⟨mi, mnm, mk⟩ := m
        cases hs : sinkStep G ⟨mi, mnm, mk⟩ with
        | error e =>
          rw [hs] at h
          exact Except.noConfusion h
        | ok p =>
          obtain ⟨G2, created⟩ := p
          rw [hs] at h
          replace h : sinkLoop fuel G2 ((pre2 ++ i :: post) ++ created) =
            Except.ok G' := h
          obtain ⟨n', hf', har⟩ :=
            sinkStep_preserves_lookup G mi mnm mk G2 created hs i n hf
          rw [hk] at har
          obtain ⟨ins', d', hk', hlen'⟩ :
              ∃ ins' d', n'.kind = .concat ins' d' ∧
                ins'.length = ins.length := by
            cases hnk : n'.kind <;> rw [hnk] at har <;>
              simp [concatArity] at har
            exact ⟨_, _, rfl, har⟩
          have hwl : (pre2 ++ i :: post) ++ created =
              pre2 ++ i :: (post ++ created) := by
            simp
          rw [hwl] at h
          have hlt2 : pre2.length < fuel := by
            simp only [List.length_cons] at hlt
            omega
          exact ih G2 pre2 (post ++ created) i n' ins' d' hlt2 hf' hk'
            (by omega) G' h

/-- C9: `SinkTranspose` asserts on a Concat with one or zero operands —
on every graph (with pointer-faithful, duplicate-free node ids) containing
such a Concat the pass never returns normally; and on every graph whose
Concats all have at least two operands the concat-arity assertion never
fires. -/
theorem concat_arity_assertion :
    (∀ (G : Graph) (n : Node) (ins : List NodeRef) (d : Nat),
      (G.nodes.map Node.id).Nodup → n ∈ G.nodes →
      n.kind = .concat ins d → ins.length ≤ 1 →
      ∀ G', SinkTranspose G ≠ .ok G') ∧
    (∀ G : Graph, concatOK G →
      SinkTranspose G ≠ .error .concatArity) := by
  constructor
  · intro G n ins d hnd hm hk hle G' h
    have hf : G.findNode n.id = some n := findNode_of_nodup G n hnd hm
    have hid : n.id ∈ G.nodes.map Node.id := List.mem_map_of_mem Node.id hm
    obtain ⟨pre, post, hsplit⟩ := List.append_of_mem hid
    have hlen : pre.length < G.nodes.length := by
      have : (G.nodes.map Node.id).length = G.nodes.length :=
        List.length_map _ _
      rw [hsplit] at this
      simp only [List.length_append, List.length_cons] at this
      omega
    have hfuel : pre.length < sinkFuel G := by
      have h1 : 0 < (G.nodes.length + 1) * (G.nodes.length + 1) :=
        Nat.mul_pos (Nat.succ_pos _) (Nat.succ_pos _)
      have h2 : G.nodes.length + 1 ≤ sinkFuel G :=
        Nat.le_mul_of_pos_left (G.nodes.length + 1) h1
      omega
    rw [SinkTranspose, hsplit] at h
    exact sinkLoop_bad_concat (sinkFuel G) G pre post n.id n ins d
      hfuel hf hk hle G' h
  · intro G hok
    exact sinkLoop_no_arity_error (sinkFuel G) G _ hok

/-- C9 witness: the two halves applied to the single-operand-concat graph
and to the well-formed concat-sinking graph. -/
theorem concat_arity_assertion_witness :
    SinkTranspose gSmallConcat ≠ .ok gSmallConcat ∧
    SinkTranspose gConcatSink ≠ .error .concatArity :=
  ⟨concat_arity_assertion.1 gSmallConcat ⟨1, "cc", .concat [.var 0] 0⟩
      [.var 0] 0 (by decide) (by decide) rfl (by decide) gSmallConcat,
   concat_arity_assertion.2 gConcatSink (by decide)⟩
